import Mathlib

/-!
# Verification development for `build/apex.go`

A shallow embedding of the APEX bundle module of the build system
(`DepsMutator`, `GenerateAndroidBuildActions`, and the two build rules
`generateFsConfig` and `apexRule`) together with the parts of the Go standard
library the module calls (`strings.Join`, `filepath.Join`, `filepath.Dir`).

Conventions of the embedding:

* a Go `map[android.Path]string` is an association list with pairwise distinct
  keys; assignment overwrites the value of an existing key.  A `range` over a
  map visits the entries in an order the language leaves unspecified, so every
  `range` statement receives its visiting order from an explicit argument;
* a Go panic is the value `none`;
* interface values of packages outside this file (`android.Path`, `android.Arch`)
  are records of the results of the methods the module calls on them.
-/

namespace Apex

/-! ## Go standard library: `strings` and `path/filepath` (Unix flavour) -/

/-- Go `strings.Join(elems, sep)`. -/
def stringsJoin : List String → String → String
  | [], _ => ""
  | [a], _ => a
  | a :: b :: rest, sep => a ++ sep ++ stringsJoin (b :: rest) sep

/-- The elements of a path: the pieces between the separators `/`. -/
def splitSep : List Char → List (List Char)
  | [] => [[]]
  | c :: cs =>
    if c = '/' then [] :: splitSep cs
    else
      match splitSep cs with
      | [] => [[c]]
      | w :: ws => (c :: w) :: ws

/-- Elements joined by single separators. -/
def joinSep : List (List Char) → List Char
  | [] => []
  | [a] => a
  | a :: b :: rest => a ++ '/' :: joinSep (b :: rest)

/-- One round of the element loop of `filepath.Clean`.  `out` holds the elements
written so far, the last one first.  An empty element and `.` are skipped; `..`
removes the last written element when there is one to backtrack over, is kept
when the path is not rooted, and is dropped at the root; any other element is
written. -/
def cleanStep (rooted : Bool) (out : List (List Char)) (elem : List Char) : List (List Char) :=
  if elem = [] then out
  else if elem = ['.'] then out
  else if elem = ['.', '.'] then
    match out with
    | [] => if rooted then [] else [elem]
    | top :: rest => if top = ['.', '.'] then elem :: out else rest
  else elem :: out

/-- Function `filepath.Clean` on the characters of a path. -/
def cleanChars (path : List Char) : List Char :=
  if path = [] then ['.']
  else
    let rooted := path.head? = some '/'
    let out := (splitSep path).foldl (cleanStep rooted) []
    let body := joinSep out.reverse
    let res := if rooted then '/' :: body else body
    if res = [] then ['.'] else res

/-- Go `filepath.Clean`. -/
def Clean (path : String) : String := ⟨cleanChars path.data⟩

/-- Go `filepath.Join`: the elements from the first non-empty one on are joined
with the separator and the result is cleaned; with no non-empty element the
result is the empty string. -/
def Join (elem : List String) : String :=
  match elem.dropWhile (fun e => e = "") with
  | [] => ""
  | e :: es => Clean (stringsJoin (e :: es) "/")

/-- The part of a path up to and including its last separator. -/
def dirPart (path : List Char) : List Char :=
  (path.reverse.dropWhile (fun c => c ≠ '/')).reverse

/-- Go `filepath.Dir`: everything but the last element of the path, cleaned. -/
def Dir (path : String) : String := ⟨cleanChars (dirPart path.data)⟩

/-! ## Values of the build system the module works on -/

/-- An `android.Path`, given by what its methods `String()` and `Base()` return. -/
structure Path where
  /-- Result of `String()`. -/
  str : String
  /-- Result of `Base()`. -/
  base : String
deriving DecidableEq

/-- An `android.ArchType`: its name (the result of `String()`) and its multilib. -/
structure ArchType where
  Name : String
  Multilib : String
deriving DecidableEq

/-- An `android.Arch`: its type, whether it is native, and the result of `String()`. -/
structure Arch where
  ArchType : ArchType
  Native : Bool
  str : String
deriving DecidableEq

/-- The dependency tag of this package. -/
structure dependencyTag where
  name : String
deriving DecidableEq

def sharedLibTag : dependencyTag := { name := "sharedLib" }
def executableTag : dependencyTag := { name := "executable" }
def javaLibTag : dependencyTag := { name := "javaLib" }
def prebuiltTag : dependencyTag := { name := "prebuilt" }

/-- The dynamic type of a dependency, with what the module reads from it:
a `*cc.Module` (its `Arch()` and its `OutputFile()`, an optional path), a
`*java.Library` (its `Srcs()`), an `*android.PrebuiltEtc` (its `SubDir()` and
its `OutputFile()`), or a module of another type. -/
inductive Module where
  | ccModule (arch : Arch) (outputFile : Option Path)
  | javaLibrary (srcs : List Path)
  | prebuiltEtc (subDir : String) (outputFile : Path)
  | other
deriving DecidableEq

/-- A direct dependency as `VisitDirectDeps` presents it: the module and the
tag of the edge that leads to it. -/
structure Dep where
  tag : dependencyTag
  module : Module
deriving DecidableEq

/-- Properties of an `apex` module. -/
structure apexBundleProperties where
  Manifest : Option String
  File_contexts : Option String
  Native_shared_lib_modules : List String
  Executable_modules : List String
  Java_modules : List String
  Prebuilt_modules : List String
deriving DecidableEq

/-! ## `DepsMutator` -/

/-- A `blueprint.Variation`. -/
structure Variation where
  Mutator : String
  Variation : String
deriving DecidableEq

/-- A dependency edge registered through `AddFarVariationDependencies`. -/
structure DependencyEdge where
  variations : List Variation
  tag : dependencyTag
  name : String
deriving DecidableEq

/-- What `DepsMutator` uses of its context: the architectures of the device,
the name of the OS of the module, and the edges registered so far. -/
structure BottomUpMutatorContext where
  arches : List Arch
  os : String
  edges : List DependencyEdge
deriving DecidableEq

/-- Method `AddFarVariationDependencies`: one edge for every name, in order. -/
def AddFarVariationDependencies (ctx : BottomUpMutatorContext) (variations : List Variation)
    (tag : dependencyTag) (names : List String) : BottomUpMutatorContext :=
  { ctx with edges := ctx.edges ++ names.map (fun n => ⟨variations, tag, n⟩) }

/-- Outcome of a run of `DepsMutator`: the context it leaves behind and the
message of the panic that ended it, if one did. -/
structure MutatorResult where
  ctx : BottomUpMutatorContext
  panicked : Option String
deriving DecidableEq

/-- Method `apexBundle.DepsMutator`. -/
def DepsMutator (properties : apexBundleProperties) (ctx : BottomUpMutatorContext) :
    MutatorResult :=
  let arches := ctx.arches
  if arches.length = 0 then
    { ctx := ctx, panicked := some "device build with no primary arch" }
  else
    let ctx := arches.foldl (fun ctx arch =>
      AddFarVariationDependencies ctx
        [ { Mutator := "arch", Variation := ctx.os ++ "_" ++ arch.str },
          { Mutator := "image", Variation := "core" },
          { Mutator := "link", Variation := "shared" } ]
        sharedLibTag properties.Native_shared_lib_modules) ctx
    let ctx := AddFarVariationDependencies ctx
      [ { Mutator := "image", Variation := "core" } ] executableTag properties.Executable_modules
    let ctx := AddFarVariationDependencies ctx [] javaLibTag properties.Java_modules
    let ctx := AddFarVariationDependencies ctx [] prebuiltTag properties.Prebuilt_modules
    { ctx := ctx, panicked := none }

/-! ## `GenerateAndroidBuildActions`: the layout -/

/-- Assignment `m[k] = v` on a map: the value of an existing key is replaced,
a new key is added. -/
def mapSet (m : List (Path × String)) (k : Path) (v : String) : List (Path × String) :=
  match m with
  | [] => [(k, v)]
  | (k', v') :: rest => if k' = k then (k, v) :: rest else (k', v') :: mapSet rest k v

/-- Lookup `m[k]` on a map. -/
def mapGet (m : List (Path × String)) (k : Path) : Option String :=
  match m with
  | [] => none
  | (k', v') :: rest => if k' = k then some v' else mapGet rest k

/-- The two variables the visit of the direct dependencies fills. -/
structure LayoutState where
  /-- files to copy -> path in apex -/
  copyManifest : List (Path × String)
  /-- files and dirs that will be created in apex -/
  pathsInApex : List String
deriving DecidableEq

/-- Function `android.InList`. -/
def InList (s : String) (list : List String) : Bool := decide (s ∈ list)

/-- The function `GenerateAndroidBuildActions` passes to `VisitDirectDeps`,
applied to one dependency.  `none` is a panic: `Path()` on an invalid
`OutputFile()`, or `Srcs()[0]` on an empty list. -/
def visitDep (st : LayoutState) (dep : Dep) : Option LayoutState :=
  if dep.tag = sharedLibTag then
    match dep.module with
    | .ccModule arch outputFile =>
      let libdir :=
        if arch.ArchType.Multilib = "lib32" then "lib"
        else if arch.ArchType.Multilib = "lib64" then "lib64"
        else ""
      let libdir := if !arch.Native then Join [libdir, arch.ArchType.Name] else libdir
      match outputFile with
      | none => none
      | some out =>
        let pathsInApex := st.pathsInApex ++ [Join [libdir, out.base]]
        let pathsInApex := if !InList libdir pathsInApex then pathsInApex ++ [libdir] else pathsInApex
        some { copyManifest := mapSet st.copyManifest out (Join [libdir, out.base]),
               pathsInApex := pathsInApex }
    | _ => some st
  else if dep.tag = executableTag then
    match dep.module with
    | .ccModule _ outputFile =>
      let dir := "bin"
      match outputFile with
      | none => none
      | some out =>
        let pathsInApex := st.pathsInApex ++ [Join [dir, out.base]]
        let pathsInApex := if !InList dir pathsInApex then pathsInApex ++ [dir] else pathsInApex
        some { copyManifest := mapSet st.copyManifest out (Join [dir, out.base]),
               pathsInApex := pathsInApex }
    | _ => some st
  else if dep.tag = javaLibTag then
    match dep.module with
    | .javaLibrary srcs =>
      let dir := "javalib"
      match srcs with
      | [] => none
      | src0 :: _ =>
        let pathsInApex := st.pathsInApex ++ [Join [dir, src0.base]]
        let pathsInApex := if !InList dir pathsInApex then pathsInApex ++ [dir] else pathsInApex
        some { copyManifest := mapSet st.copyManifest src0 (Join [dir, src0.base]),
               pathsInApex := pathsInApex }
    | _ => some st
  else if dep.tag = prebuiltTag then
    match dep.module with
    | .prebuiltEtc subDir outputFile =>
      let dir := Join ["etc", subDir]
      let pathsInApex := st.pathsInApex ++ [Join [dir, outputFile.base]]
      let pathsInApex := if !InList dir pathsInApex then pathsInApex ++ [dir] else pathsInApex
      some { copyManifest := mapSet st.copyManifest outputFile (Join [dir, outputFile.base]),
             pathsInApex := pathsInApex }
    | _ => some st
  else some st

/-- Method `VisitDirectDeps` with the function above: the dependencies are
visited in order, and a panic ends the visit. -/
def visitDirectDeps : List Dep → LayoutState → Option LayoutState
  | [], st => some st
  | dep :: deps, st =>
    match visitDep st dep with
    | none => none
    | some st' => visitDirectDeps deps st'

/-- The layout `GenerateAndroidBuildActions` computes: the visit started with
an empty `copyManifest` and an empty `pathsInApex`. -/
def layout (deps : List Dep) : Option LayoutState :=
  visitDirectDeps deps { copyManifest := [], pathsInApex := [] }

/-! ## `GenerateAndroidBuildActions`: the build rules and the build statements -/

/-- What `GenerateAndroidBuildActions` uses of its context and of the module:
the direct dependencies in the order `VisitDirectDeps` presents them, the path
constructors of the build system, the prebuilt OS of the configuration and the
name of the module. -/
structure ModuleContext where
  deps : List Dep
  PathForModuleOut : String → Path
  PathForModuleSrc : String → Path
  PathForSource : String → Path
  PathForOutput : List String → Path
  PathForModuleInstall : String → Path
  PrebuiltOS : String
  Name : String

/-- The fields of `android.ModuleBuildParams` the module sets; `Rule` is the
name of the rule. -/
structure ModuleBuildParams where
  Rule : String
  Implicits : List Path
  Output : Path
  Args : List (String × String)
deriving DecidableEq

/-- Value of the variable `key` in the arguments of a build statement. -/
def argOf (args : List (String × String)) (key : String) : String :=
  match args with
  | [] => ""
  | (k, v) :: rest => if k = key then v else argOf rest key

/-- Command of the rule `apexRule` for the output `out`, the arguments `args`
of the build statement and the host tool `apexer`. -/
def apexRuleCommand (apexer out : String) (args : List (String × String)) : String :=
  "rm -rf " ++ argOf args "image_dir" ++ " && mkdir -p " ++ argOf args "image_dir" ++ " && " ++
  "(" ++ argOf args "copy_commands" ++ ") && " ++
  "APEXER_TOOL_PATH=" ++ argOf args "tool_path" ++ " " ++
  apexer ++ " --verbose --force --manifest " ++ argOf args "manifest" ++ " " ++
  "--file_contexts " ++ argOf args "file_contexts" ++ " " ++
  "--canned_fs_config " ++ argOf args "canned_fs_config" ++ " " ++
  "--key " ++ argOf args "key" ++ " " ++ argOf args "image_dir" ++ " " ++ out ++ " "

def apexSuffix : String := ".apex"

/-- Function `proptools.StringDefault`. -/
def StringDefault (s : Option String) (default : String) : String :=
  match s with
  | some v => v
  | none => default

/-- The order in which one `range` statement visits the entries of a map. -/
abbrev RangeOrder := List (Path × String) → List (Path × String)

/-- A visiting order is admissible when it visits every entry of the map once. -/
def RangeOrder.admissible (r : RangeOrder) : Prop := ∀ m, (r m).Perm m

/-- The staging commands of one entry of `copyManifest`. -/
def copyCommandsOf (imageDir : String) (entry : Path × String) : List String :=
  let dest_path := Join [imageDir, entry.2]
  ["mkdir -p " ++ Dir dest_path, "cp " ++ entry.1.str ++ " " ++ dest_path]

/-- What a run of `GenerateAndroidBuildActions` leaves behind: its local
variables, the two build statements and the two fields of the module it sets. -/
structure BuildActions where
  copyManifest : List (Path × String)
  pathsInApex : List String
  implicitInputs : List Path
  copyCommands : List String
  fsConfigBuild : ModuleBuildParams
  apexBuild : ModuleBuildParams
  outputFile : Path
  installDir : Path
deriving DecidableEq

/-- Method `apexBundle.GenerateAndroidBuildActions`.  `range₁` and `range₂` are
the visiting orders of its two `range` statements over `copyManifest`. -/
def GenerateAndroidBuildActions (properties : apexBundleProperties) (ctx : ModuleContext)
    (range₁ range₂ : RangeOrder) : Option BuildActions :=
  match layout ctx.deps with
  | none => none
  | some st =>
    let copyManifest := st.copyManifest
    let pathsInApex := st.pathsInApex
    let cannedFsConfig := ctx.PathForModuleOut "canned_fs_config"
    let fsConfigBuild : ModuleBuildParams :=
      { Rule := "generateFsConfig",
        Implicits := [],
        Output := cannedFsConfig,
        Args := [("paths", stringsJoin pathsInApex " ")] }
    let manifest := ctx.PathForModuleSrc (StringDefault properties.Manifest "manifest.json")
    let fileContexts := ctx.PathForModuleSrc (StringDefault properties.File_contexts "file_contexts")
    let key := ctx.PathForSource "system/apex/apexer/testdata/testkey.pem"
    let outputFile := ctx.PathForModuleOut (ctx.Name ++ apexSuffix)
    let implicitInputs := (range₁ copyManifest).map (fun e => e.1)
    let copyCommands := (range₂ copyManifest).foldl
      (fun cmds e => cmds ++ copyCommandsOf (ctx.PathForModuleOut "image").str e) []
    let implicitInputs := implicitInputs ++ [cannedFsConfig, manifest, fileContexts, key]
    let outHostBinDir := (ctx.PathForOutput ["host", ctx.PrebuiltOS, "bin"]).str
    let prebuiltSdkToolsBinDir := Join ["prebuilts", "sdk", "tools", ctx.PrebuiltOS, "bin"]
    let apexBuild : ModuleBuildParams :=
      { Rule := "apexRule",
        Implicits := implicitInputs,
        Output := outputFile,
        Args := [ ("tool_path", outHostBinDir ++ ":" ++ prebuiltSdkToolsBinDir),
                  ("image_dir", (ctx.PathForModuleOut "image").str),
                  ("copy_commands", stringsJoin copyCommands " && "),
                  ("manifest", manifest.str),
                  ("file_contexts", fileContexts.str),
                  ("canned_fs_config", cannedFsConfig.str),
                  ("key", key.str) ] }
    some { copyManifest := copyManifest,
           pathsInApex := pathsInApex,
           implicitInputs := implicitInputs,
           copyCommands := copyCommands,
           fsConfigBuild := fsConfigBuild,
           apexBuild := apexBuild,
           outputFile := outputFile,
           installDir := ctx.PathForModuleInstall "apex" }

/-! ## Notions used to state the properties -/

/-- A dependency is resolved when its module has the output the visit reads:
a valid `OutputFile()` for a `*cc.Module`, a non-empty `Srcs()` for a
`*java.Library`. -/
def Resolved (dep : Dep) : Prop :=
  match dep.module with
  | .ccModule _ outputFile => outputFile ≠ none
  | .javaLibrary srcs => srcs ≠ []
  | _ => True

instance (dep : Dep) : Decidable (Resolved dep) := by
  unfold Resolved
  cases dep.module <;> infer_instance

/-- The source artifact and the in-package directory the visit uses for a
dependency; `none` for a dependency the visit passes over (a tag of another
package, a module of a type the tag does not go with) and for one that is not
resolved. -/
def placement (dep : Dep) : Option (Path × String) :=
  if dep.tag = sharedLibTag then
    match dep.module with
    | .ccModule arch (some out) =>
      let libdir :=
        if arch.ArchType.Multilib = "lib32" then "lib"
        else if arch.ArchType.Multilib = "lib64" then "lib64"
        else ""
      some (out, if arch.Native then libdir else Join [libdir, arch.ArchType.Name])
    | _ => none
  else if dep.tag = executableTag then
    match dep.module with
    | .ccModule _ (some out) => some (out, "bin")
    | _ => none
  else if dep.tag = javaLibTag then
    match dep.module with
    | .javaLibrary (src0 :: _) => some (src0, "javalib")
    | _ => none
  else if dep.tag = prebuiltTag then
    match dep.module with
    | .prebuiltEtc subDir outputFile => some (outputFile, Join ["etc", subDir])
    | _ => none
  else none

/-- The update of the two variables for a source artifact placed in a
directory: the file is added to the path list, the directory is added unless
the list has it already, and the file becomes the destination of the source. -/
def record (st : LayoutState) (e : Path × String) : LayoutState :=
  let file := Join [e.2, e.1.base]
  { copyManifest := mapSet st.copyManifest e.1 file,
    pathsInApex :=
      if !InList e.2 (st.pathsInApex ++ [file]) then st.pathsInApex ++ [file] ++ [e.2]
      else st.pathsInApex ++ [file] }

/-- The placements of a list of dependencies, in visiting order. -/
def placements (deps : List Dep) : List (Path × String) := deps.filterMap placement

/-- A plain file name: not empty, without a separator, and neither `.` nor `..`. -/
def PlainName (s : String) : Prop :=
  s.data ≠ [] ∧ '/' ∉ s.data ∧ s.data ≠ ['.'] ∧ s.data ≠ ['.', '.']

instance (s : String) : Decidable (PlainName s) := by
  unfold PlainName; infer_instance

/-- A clean relative path: every element between separators is a plain name. -/
def CleanRel (s : String) : Prop :=
  ∀ c ∈ splitSep s.data, c ≠ [] ∧ '/' ∉ c ∧ c ≠ ['.'] ∧ c ≠ ['.', '.']

instance (s : String) : Decidable (CleanRel s) := by
  unfold CleanRel; infer_instance

/-- The names the layout reads from a dependency are well formed: the base
name of the artifact is a plain name, the name of the architecture of a
library that is not native is a plain name, and the sub-directory of a
prebuilt is empty or a clean relative path. -/
def WellNamed (dep : Dep) : Prop :=
  match dep.module with
  | .ccModule arch (some out) =>
    PlainName out.base ∧ (arch.Native = false → PlainName arch.ArchType.Name)
  | .javaLibrary (src0 :: _) => PlainName src0.base
  | .prebuiltEtc subDir out => PlainName out.base ∧ (subDir = "" ∨ CleanRel subDir)
  | _ => True

instance (dep : Dep) : Decidable (WellNamed dep) := by
  unfold WellNamed
  split <;> infer_instance

/-- The layout table as the specification words it: the source artifact of a
dependency, its destination directory and its destination path.  A shared
library goes to `lib` or `lib64` by its multilib, nested under the name of the
architecture when that is not native; an executable goes to `bin`; a java
library to `javalib`, under the base name of its first output; a prebuilt to
`etc/<sub-directory>` (to `etc` when the sub-directory is empty). -/
def specDestination (dep : Dep) : Option (Path × String × String) :=
  if dep.tag = sharedLibTag then
    match dep.module with
    | .ccModule arch (some out) =>
      if arch.ArchType.Multilib = "lib32" then
        if arch.Native then some (out, "lib", "lib/" ++ out.base)
        else some (out, "lib/" ++ arch.ArchType.Name,
          "lib/" ++ arch.ArchType.Name ++ "/" ++ out.base)
      else if arch.ArchType.Multilib = "lib64" then
        if arch.Native then some (out, "lib64", "lib64/" ++ out.base)
        else some (out, "lib64/" ++ arch.ArchType.Name,
          "lib64/" ++ arch.ArchType.Name ++ "/" ++ out.base)
      else none
    | _ => none
  else if dep.tag = executableTag then
    match dep.module with
    | .ccModule _ (some out) => some (out, "bin", "bin/" ++ out.base)
    | _ => none
  else if dep.tag = javaLibTag then
    match dep.module with
    | .javaLibrary (src0 :: _) => some (src0, "javalib", "javalib/" ++ src0.base)
    | _ => none
  else if dep.tag = prebuiltTag then
    match dep.module with
    | .prebuiltEtc subDir out =>
      if subDir = "" then some (out, "etc", "etc/" ++ out.base)
      else some (out, "etc/" ++ subDir, "etc/" ++ subDir ++ "/" ++ out.base)
    | _ => none
  else none

def armArch : Arch := { ArchType := { Name := "arm", Multilib := "lib32" }, Native := true, str := "arm" }
def arm64Arch : Arch := { ArchType := { Name := "arm64", Multilib := "lib64" }, Native := true, str := "arm64" }

/-- Scenario A: the shared library `libc` built for `arm` and for `arm64`. -/
def scenarioA : List Dep :=
  [ { tag := sharedLibTag,
      module := .ccModule armArch (some { str := "out/arm/libc.so", base := "libc.so" }) },
    { tag := sharedLibTag,
      module := .ccModule arm64Arch (some { str := "out/arm64/libc.so", base := "libc.so" }) } ]

/-- Scenario B: the executable `toybox`. -/
def scenarioB : List Dep :=
  [ { tag := executableTag,
      module := .ccModule arm64Arch (some { str := "out/arm64/toybox", base := "toybox" }) } ]

/-- The shared-library edge for a library and an architecture: the variation
of the architecture, the `core` image and the `shared` link. -/
def sharedLibEdge (os : String) (arch : Arch) (lib : String) : DependencyEdge :=
  { variations :=
      [ { Mutator := "arch", Variation := os ++ "_" ++ arch.str },
        { Mutator := "image", Variation := "core" },
        { Mutator := "link", Variation := "shared" } ],
    tag := sharedLibTag,
    name := lib }

/-- The edges of a list that carry the shared-library tag. -/
def sharedLibEdges (edges : List DependencyEdge) : List DependencyEdge :=
  edges.filter (fun e => e.tag = sharedLibTag)

/-- A context for the scenarios: outputs of the module under `out/m`, sources
of the module under `m`. -/
def sampleContext (deps : List Dep) : ModuleContext :=
  { deps := deps,
    PathForModuleOut := fun n => { str := "out/m/" ++ n, base := n },
    PathForModuleSrc := fun n => { str := "m/" ++ n, base := n },
    PathForSource := fun n => { str := n, base := "testkey.pem" },
    PathForOutput := fun l => { str := Join ("out" :: l), base := "bin" },
    PathForModuleInstall := fun n => { str := "out/target/system/" ++ n, base := n },
    PrebuiltOS := "linux-x86",
    Name := "myapex" }

/-- Properties that leave the manifest and the file contexts at their defaults. -/
def sampleProperties : apexBundleProperties :=
  { Manifest := none, File_contexts := none, Native_shared_lib_modules := [],
    Executable_modules := [], Java_modules := [], Prebuilt_modules := [] }

/-- The destination path of a placement: the directory joined with the base
name of the source artifact. -/
abbrev destOf (e : Path × String) : String := Join [e.2, e.1.base]

/-- Two executables with different outputs of the same base name. -/
def twoToyboxes : List Dep :=
  [ { tag := executableTag,
      module := .ccModule arm64Arch (some { str := "out/a/toybox", base := "toybox" }) },
    { tag := executableTag,
      module := .ccModule arm64Arch (some { str := "out/b/toybox", base := "toybox" }) } ]

/-- A prebuilt installed in the sub-directory `firmware`. -/
def nestedPrebuilt : List Dep :=
  [ { tag := prebuiltTag,
      module := .prebuiltEtc "firmware" { str := "m/fw.bin", base := "fw.bin" } } ]

/-- The directories on the way from the image root to a destination path:
for `etc/firmware/fw.bin` these are `etc` and `etc/firmware`. -/
def impliedDirs (dest : String) : List String :=
  let comps := splitSep dest.data
  (List.range (comps.length - 1)).map (fun i => String.mk (joinSep (comps.take (i + 1))))

/-- The executables `a` and `b`. -/
def twoExecutables : List Dep :=
  [ { tag := executableTag,
      module := .ccModule arm64Arch (some { str := "out/a", base := "a" }) },
    { tag := executableTag,
      module := .ccModule arm64Arch (some { str := "out/b", base := "b" }) } ]

/-- The prebuilt file `foo` in `etc` and the prebuilt file `bar` in the
sub-directory `foo`. -/
def fileAndDirectory : List Dep :=
  [ { tag := prebuiltTag, module := .prebuiltEtc "" { str := "m/foo", base := "foo" } },
    { tag := prebuiltTag, module := .prebuiltEtc "foo" { str := "m/bar", base := "bar" } } ]

/-- The entry has a source other than `k`. -/
def otherSource (k : Path) (y : Path × String) : Bool := decide (y.1 ≠ k)

/-! ## The visit, step by step -/

theorem visitDep_eq (st : LayoutState) (dep : Dep) (h : Resolved dep) :
    visitDep st dep = some (match placement dep with
      | none => st
      | some e => record st e) := by
  have t1 : executableTag ≠ sharedLibTag := by decide
  have t2 : javaLibTag ≠ sharedLibTag := by decide
  have t3 : javaLibTag ≠ executableTag := by decide
  have t4 : prebuiltTag ≠ sharedLibTag := by decide
  have t5 : prebuiltTag ≠ executableTag := by decide
  have t6 : prebuiltTag ≠ javaLibTag := by decide
  obtain ⟨tag, m⟩ := dep
  unfold Resolved at h
  unfold visitDep placement record
  by_cases h1 : tag = sharedLibTag
  · subst h1
    cases m with
    | ccModule arch outputFile =>
      cases outputFile with
      | none => simp at h
      | some out => cases hn : arch.Native <;> simp [hn]
    | javaLibrary srcs => simp
    | prebuiltEtc subDir outputFile => simp
    | other => simp
  · by_cases h2 : tag = executableTag
    · subst h2
      cases m with
      | ccModule arch outputFile =>
        cases outputFile with
        | none => simp at h
        | some out => simp [t1]
      | javaLibrary srcs => simp [t1]
      | prebuiltEtc subDir outputFile => simp [t1]
      | other => simp [t1]
    · by_cases h3 : tag = javaLibTag
      · subst h3
        cases m with
        | ccModule arch outputFile => simp [t2, t3]
        | javaLibrary srcs =>
          cases srcs with
          | nil => simp at h
          | cons src0 rest => simp [t2, t3]
        | prebuiltEtc subDir outputFile => simp [t2, t3]
        | other => simp [t2, t3]
      · by_cases h4 : tag = prebuiltTag
        · subst h4
          cases m <;> simp [t4, t5, t6]
        · cases m <;> simp [h1, h2, h3, h4]


/-! ## Facts about the path functions -/

theorem splitSep_ne_nil (l : List Char) : splitSep l ≠ [] := by
  cases l with
  | nil => simp [splitSep]
  | cons c cs =>
    unfold splitSep
    split
    · simp
    · split <;> simp

theorem splitSep_append_sep (x y : List Char) :
    splitSep (x ++ '/' :: y) = splitSep x ++ splitSep y := by
  induction x with
  | nil => simp [splitSep]
  | cons c xs ih =>
    by_cases hc : c = '/'
    · simp [splitSep, hc, ih]
    · have hne := splitSep_ne_nil xs
      cases hxs : splitSep xs with
      | nil => exact absurd hxs hne
      | cons w ws => simp [splitSep, hc, ih, hxs]

theorem joinSep_splitSep (l : List Char) : joinSep (splitSep l) = l := by
  induction l with
  | nil => simp [splitSep, joinSep]
  | cons c cs ih =>
    by_cases hc : c = '/'
    · have hne := splitSep_ne_nil cs
      cases hcs : splitSep cs with
      | nil => exact absurd hcs hne
      | cons w ws =>
        rw [hcs] at ih
        simp [splitSep, hc, hcs, joinSep, ih]
    · have hne := splitSep_ne_nil cs
      cases hcs : splitSep cs with
      | nil => exact absurd hcs hne
      | cons w ws =>
        rw [hcs] at ih
        cases ws with
        | nil => simp [splitSep, hc, hcs, joinSep] at ih ⊢; exact ih
        | cons w2 ws2 =>
          simp [splitSep, hc, hcs, joinSep] at ih ⊢; exact ih

theorem foldl_cleanStep_plain (rooted : Bool) (comps out : List (List Char))
    (h : ∀ c ∈ comps, c ≠ [] ∧ '/' ∉ c ∧ c ≠ ['.'] ∧ c ≠ ['.', '.']) :
    comps.foldl (cleanStep rooted) out = comps.reverse ++ out := by
  induction comps generalizing out with
  | nil => simp
  | cons c cs ih =>
    have hc := h c (by simp)
    have hstep : cleanStep rooted out c = c :: out := by
      simp [cleanStep, hc.1, hc.2.2.1, hc.2.2.2]
    simp only [List.foldl_cons, hstep]
    rw [ih _ (fun c' hc' => h c' (by simp [hc']))]
    simp

theorem cleanChars_of_plain (l : List Char)
    (h : ∀ c ∈ splitSep l, c ≠ [] ∧ '/' ∉ c ∧ c ≠ ['.'] ∧ c ≠ ['.', '.']) :
    cleanChars l = l := by
  have hj := joinSep_splitSep l
  cases l with
  | nil => simp [splitSep] at h
  | cons a as =>
    have ha : a ≠ '/' := by
      intro ha
      have := h [] (by simp [splitSep, ha])
      simp at this
    unfold cleanChars
    simp only [foldl_cleanStep_plain _ _ _ h]
    simp [ha, hj]

theorem Clean_of_cleanRel (s : String) (h : CleanRel s) : Clean s = s := by
  unfold Clean
  rw [cleanChars_of_plain _ h]

theorem Join_pair (a b : String) (ha : CleanRel a) (hb : CleanRel b) :
    Join [a, b] = a ++ "/" ++ b ∧ CleanRel (a ++ "/" ++ b) := by
  have hne : a ≠ "" := by
    intro h0
    subst h0
    have := ha [] (by simp [splitSep])
    simp at this
  have hrel : CleanRel (a ++ "/" ++ b) := by
    intro c hc
    have hd : (a ++ "/" ++ b).data = a.data ++ '/' :: b.data := by
      simp [String.data_append]
    rw [hd, splitSep_append_sep] at hc
    rcases List.mem_append.mp hc with h1 | h1
    · exact ha c h1
    · exact hb c h1
  refine ⟨?_, hrel⟩
  simp only [Join, List.dropWhile, hne, decide_False, stringsJoin]
  exact Clean_of_cleanRel _ hrel

theorem splitSep_of_no_sep (l : List Char) (h : '/' ∉ l) : splitSep l = [l] := by
  induction l with
  | nil => simp [splitSep]
  | cons c cs ih =>
    simp only [List.mem_cons, not_or] at h
    have hc : c ≠ '/' := fun hc => h.1 hc.symm
    simp [splitSep, hc, ih h.2]

theorem cleanRel_of_plainName (s : String) (h : PlainName s) : CleanRel s := by
  intro c hc
  rw [splitSep_of_no_sep _ h.2.1] at hc
  simp only [List.mem_singleton] at hc
  subst hc
  exact h

theorem Join_empty_left (b : String) (hb : CleanRel b) : Join ["", b] = b := by
  have hne : b ≠ "" := by
    intro h0
    subst h0
    have := hb [] (by simp [splitSep])
    simp at this
  simp only [Join, List.dropWhile, decide_True, hne, decide_False, stringsJoin]
  exact Clean_of_cleanRel _ hb

theorem Join_dir_name (d b : String) (hd : CleanRel d) (hb : PlainName b) :
    Join [d, b] = d ++ "/" ++ b :=
  (Join_pair d b hd (cleanRel_of_plainName b hb)).1

/-- The layout table of the specification agrees with the placement the visit
computes, for well-formed names. -/
theorem placement_of_spec (dep : Dep) (src : Path) (dir dest : String)
    (hn : WellNamed dep) (hs : specDestination dep = some (src, dir, dest)) :
    placement dep = some (src, dir) ∧ Join [dir, src.base] = dest := by
  have t1 : executableTag ≠ sharedLibTag := by decide
  have t2 : javaLibTag ≠ sharedLibTag := by decide
  have t3 : javaLibTag ≠ executableTag := by decide
  have t4 : prebuiltTag ≠ sharedLibTag := by decide
  have t5 : prebuiltTag ≠ executableTag := by decide
  have t6 : prebuiltTag ≠ javaLibTag := by decide
  have e1 : ("lib/" : String) = "lib" ++ "/" := by decide
  have e2 : ("lib64/" : String) = "lib64" ++ "/" := by decide
  have e3 : ("bin/" : String) = "bin" ++ "/" := by decide
  have e4 : ("javalib/" : String) = "javalib" ++ "/" := by decide
  have e5 : ("etc/" : String) = "etc" ++ "/" := by decide
  have c1 : CleanRel "lib" := by decide
  have c2 : CleanRel "lib64" := by decide
  have c3 : CleanRel "bin" := by decide
  have c4 : CleanRel "javalib" := by decide
  have c5 : CleanRel "etc" := by decide
  have j5 : Join ["etc", ""] = "etc" := by decide
  have n64 : ("lib64" : String) ≠ "lib32" := by decide
  obtain ⟨tag, m⟩ := dep
  unfold WellNamed at hn
  unfold specDestination at hs
  unfold placement
  by_cases h1 : tag = sharedLibTag
  · subst h1
    cases m with
    | ccModule arch outputFile =>
      cases outputFile with
      | none => simp at hs
      | some out =>
        simp only [if_true] at hs hn ⊢
        by_cases m32 : arch.ArchType.Multilib = "lib32"
        · cases hnat : arch.Native
          · have hp := Join_pair "lib" arch.ArchType.Name c1
              (cleanRel_of_plainName _ (hn.2 hnat))
            simp only [m32, hnat, if_true, Bool.false_eq_true, if_false, Option.some.injEq,
              Prod.mk.injEq] at hs ⊢
            obtain ⟨rfl, rfl, rfl⟩ := hs
            rw [hp.1, e1]
            refine ⟨⟨rfl, rfl⟩, ?_⟩
            exact (Join_pair _ _ hp.2 (cleanRel_of_plainName _ hn.1)).1
          · simp only [m32, hnat, if_true, Option.some.injEq, Prod.mk.injEq] at hs ⊢
            obtain ⟨rfl, rfl, rfl⟩ := hs
            refine ⟨⟨rfl, rfl⟩, ?_⟩
            rw [e1]
            exact Join_dir_name _ _ c1 hn.1
        · by_cases m64 : arch.ArchType.Multilib = "lib64"
          · cases hnat : arch.Native
            · have hp := Join_pair "lib64" arch.ArchType.Name c2
                (cleanRel_of_plainName _ (hn.2 hnat))
              simp only [m32, m64, n64, hnat, if_true, Bool.false_eq_true, if_false,
                Option.some.injEq, Prod.mk.injEq] at hs ⊢
              obtain ⟨rfl, rfl, rfl⟩ := hs
              rw [hp.1, e2]
              refine ⟨⟨rfl, rfl⟩, ?_⟩
              exact (Join_pair _ _ hp.2 (cleanRel_of_plainName _ hn.1)).1
            · simp only [m32, m64, n64, hnat, if_true, if_false, Option.some.injEq,
                Prod.mk.injEq] at hs ⊢
              obtain ⟨rfl, rfl, rfl⟩ := hs
              refine ⟨⟨rfl, rfl⟩, ?_⟩
              rw [e2]
              exact Join_dir_name _ _ c2 hn.1
          · simp [m32, m64] at hs
    | javaLibrary srcs => simp at hs
    | prebuiltEtc subDir outputFile => simp at hs
    | other => simp at hs
  · by_cases h2 : tag = executableTag
    · subst h2
      cases m with
      | ccModule arch outputFile =>
        cases outputFile with
        | none => simp [t1] at hs
        | some out =>
          simp only [t1, if_true, if_false, Option.some.injEq, Prod.mk.injEq] at hs hn ⊢
          obtain ⟨rfl, rfl, rfl⟩ := hs
          refine ⟨⟨rfl, rfl⟩, ?_⟩
          rw [e3]
          exact Join_dir_name _ _ c3 hn.1
      | javaLibrary srcs => simp [t1] at hs
      | prebuiltEtc subDir outputFile => simp [t1] at hs
      | other => simp [t1] at hs
    · by_cases h3 : tag = javaLibTag
      · subst h3
        cases m with
        | ccModule arch outputFile => simp [t2, t3] at hs
        | javaLibrary srcs =>
          cases srcs with
          | nil => simp [t2, t3] at hs
          | cons src0 rest =>
            simp only [t2, t3, if_true, if_false, Option.some.injEq, Prod.mk.injEq] at hs hn ⊢
            obtain ⟨rfl, rfl, rfl⟩ := hs
            refine ⟨⟨rfl, rfl⟩, ?_⟩
            rw [e4]
            exact Join_dir_name _ _ c4 hn
        | prebuiltEtc subDir outputFile => simp [t2, t3] at hs
        | other => simp [t2, t3] at hs
      · by_cases h4 : tag = prebuiltTag
        · subst h4
          cases m with
          | ccModule arch outputFile => simp [t4, t5, t6] at hs
          | javaLibrary srcs => simp [t4, t5, t6] at hs
          | prebuiltEtc subDir out =>
            by_cases hsub : subDir = ""
            · subst hsub
              simp only [t4, t5, t6, if_true, if_false, Option.some.injEq,
                Prod.mk.injEq] at hs hn ⊢
              obtain ⟨rfl, rfl, rfl⟩ := hs
              rw [j5, e5]
              refine ⟨⟨rfl, rfl⟩, ?_⟩
              exact Join_dir_name _ _ c5 hn.1
            · have hcr : CleanRel subDir := hn.2.resolve_left hsub
              have hp := Join_pair "etc" subDir c5 hcr
              simp only [t4, t5, t6, hsub, if_true, if_false, Option.some.injEq,
                Prod.mk.injEq] at hs hn ⊢
              obtain ⟨rfl, rfl, rfl⟩ := hs
              rw [hp.1, e5]
              refine ⟨⟨rfl, rfl⟩, ?_⟩
              exact (Join_pair _ _ hp.2 (cleanRel_of_plainName _ hn.1)).1
          | other => simp [t4, t5, t6] at hs
        · simp [h1, h2, h3, h4] at hs

/-! ## Facts about the map operations and the visit -/

theorem mapGet_mapSet_self (m : List (Path × String)) (k : Path) (v : String) :
    mapGet (mapSet m k v) k = some v := by
  induction m with
  | nil => simp [mapSet, mapGet]
  | cons e rest ih =>
    obtain ⟨k', v'⟩ := e
    by_cases h : k' = k
    · simp [mapSet, mapGet, h]
    · simp [mapSet, mapGet, h, ih]

theorem mapGet_mapSet_of_ne (m : List (Path × String)) (k k' : Path) (v : String)
    (h : k ≠ k') : mapGet (mapSet m k v) k' = mapGet m k' := by
  induction m with
  | nil => simp [mapSet, mapGet, h]
  | cons e rest ih =>
    obtain ⟨k₁, v₁⟩ := e
    by_cases h1 : k₁ = k
    · subst h1
      simp [mapSet, mapGet, h]
    · by_cases h2 : k₁ = k'
      · subst h2
        simp [mapSet, mapGet, h1]
      · simp [mapSet, mapGet, h1, h2, ih]

theorem mem_mapSet (m : List (Path × String)) (k : Path) (v : String) (e : Path × String)
    (h : e ∈ mapSet m k v) : e = (k, v) ∨ e ∈ m := by
  induction m with
  | nil => simpa [mapSet] using h
  | cons e' rest ih =>
    obtain ⟨k', v'⟩ := e'
    by_cases h1 : k' = k
    · simp only [mapSet, h1, if_true, List.mem_cons] at h
      rcases h with h | h
      · exact Or.inl h
      · exact Or.inr (List.mem_cons_of_mem _ h)
    · simp only [mapSet, h1, if_false, List.mem_cons] at h
      rcases h with h | h
      · exact Or.inr (by simp [h])
      · rcases ih h with h | h
        · exact Or.inl h
        · exact Or.inr (List.mem_cons_of_mem _ h)

theorem visitDirectDeps_eq (deps : List Dep) (st : LayoutState)
    (h : ∀ d ∈ deps, Resolved d) :
    visitDirectDeps deps st = some ((placements deps).foldl record st) := by
  induction deps generalizing st with
  | nil => simp [visitDirectDeps, placements]
  | cons d ds ih =>
    have hd := visitDep_eq st d (h d (by simp))
    have hds := fun st' => ih st' (fun d' hd' => h d' (by simp [hd']))
    simp only [visitDirectDeps, hd, hds, placements, List.filterMap_cons]
    cases placement d <;> simp

theorem layout_eq (deps : List Dep) (h : ∀ d ∈ deps, Resolved d) :
    layout deps = some ((placements deps).foldl record { copyManifest := [], pathsInApex := [] }) :=
  visitDirectDeps_eq deps _ h

theorem record_file_mem (st : LayoutState) (e : Path × String) :
    Join [e.2, e.1.base] ∈ (record st e).pathsInApex := by
  unfold record
  simp only
  split <;> simp

theorem record_dir_mem (st : LayoutState) (e : Path × String) :
    e.2 ∈ (record st e).pathsInApex := by
  unfold record InList
  simp only
  split
  · simp
  · rename_i h
    simp only [Bool.not_eq_true, Bool.not_eq_eq_eq_not, Bool.not_true, decide_eq_false_iff_not,
      not_not] at h
    exact h

theorem record_paths_mono (st : LayoutState) (e : Path × String) (p : String)
    (h : p ∈ st.pathsInApex) : p ∈ (record st e).pathsInApex := by
  unfold record
  simp only
  split <;> simp [h]

theorem foldl_record_paths_mono (es : List (Path × String)) (st : LayoutState) (p : String)
    (h : p ∈ st.pathsInApex) : p ∈ (es.foldl record st).pathsInApex := by
  induction es generalizing st with
  | nil => simpa using h
  | cons e es ih => exact ih _ (record_paths_mono st e p h)

theorem foldl_record_get_of_not_source (es : List (Path × String)) (st : LayoutState)
    (k : Path) (h : ∀ e ∈ es, e.1 ≠ k) :
    mapGet (es.foldl record st).copyManifest k = mapGet st.copyManifest k := by
  induction es generalizing st with
  | nil => simp
  | cons e es ih =>
    simp only [List.foldl_cons]
    rw [ih _ (fun e' he' => h e' (by simp [he']))]
    exact mapGet_mapSet_of_ne _ _ _ _ (h e (by simp))

theorem foldl_record_entry (es : List (Path × String)) (st : LayoutState) (x : Path × String)
    (h : x ∈ (es.foldl record st).copyManifest) :
    x ∈ st.copyManifest ∨ ∃ e ∈ es, e.1 = x.1 ∧ x.2 = Join [e.2, x.1.base] := by
  induction es generalizing st with
  | nil => exact Or.inl (by simpa using h)
  | cons e es ih =>
    rcases ih _ h with h1 | ⟨e', he', h2⟩
    · rcases mem_mapSet _ _ _ _ h1 with h3 | h3
      · refine Or.inr ⟨e, by simp, ?_⟩
        simp [h3]
      · exact Or.inl h3
    · exact Or.inr ⟨e', by simp [he'], h2⟩

theorem mem_placements (deps : List Dep) (e : Path × String) (h : e ∈ placements deps) :
    ∃ d ∈ deps, placement d = some e := by
  simpa [placements, List.mem_filterMap] using h

/-! ## Claims about the layout -/

/-- C1: the destination recorded in `copyManifest` for a visited dependency is
the directory of its category joined with the base name of its artifact, as the
layout table of the specification gives it (`lib/<name>`, `lib64/<name>`,
`<dir>/<abi>/<name>`, `bin/<name>`, `javalib/<name>`, `etc/<sub-directory>/<name>`):
in the layout of `pre ++ dep :: post`, where no later dependency has the same
source artifact, the source of `dep` is mapped to that destination, and the
destination and its directory are in the path list.  Every pair of the final
`copyManifest` comes from a visited dependency in this way.  Scenario A yields
`lib/libc.so` and `lib64/libc.so`; scenario B yields `bin/toybox` with `bin` in
the path list. -/
theorem C1_destination_recorded (pre post : List Dep) (dep : Dep) (src : Path)
    (dir dest : String)
    (hres : ∀ d ∈ pre ++ dep :: post, Resolved d)
    (hnamed : WellNamed dep)
    (hspec : specDestination dep = some (src, dir, dest))
    (hlast : ∀ d ∈ post, ∀ e, placement d = some e → e.1 ≠ src) :
    ∃ st, layout (pre ++ dep :: post) = some st ∧
      mapGet st.copyManifest src = some dest ∧
      dest = Join [dir, src.base] ∧
      dest ∈ st.pathsInApex ∧ dir ∈ st.pathsInApex ∧
      (∀ s t, (s, t) ∈ st.copyManifest →
        ∃ d ∈ pre ++ dep :: post, ∃ q, placement d = some (s, q) ∧ t = Join [q, s.base]) ∧
      (layout scenarioA).map (fun st => st.copyManifest.map Prod.snd)
        = some ["lib/libc.so", "lib64/libc.so"] ∧
      layout scenarioB = some
        { copyManifest := [({ str := "out/arm64/toybox", base := "toybox" }, "bin/toybox")],
          pathsInApex := ["bin/toybox", "bin"] } := by
  obtain ⟨hpl, hjoin⟩ := placement_of_spec dep src dir dest hnamed hspec
  refine ⟨_, layout_eq _ hres, ?_, hjoin.symm, ?_, ?_, ?_, by decide, by decide⟩
  · have hsplit : placements (pre ++ dep :: post)
        = placements pre ++ (src, dir) :: placements post := by
      simp [placements, List.filterMap_append, List.filterMap_cons, hpl]
    rw [hsplit, List.foldl_append, List.foldl_cons]
    rw [foldl_record_get_of_not_source]
    · rw [← hjoin]
      exact mapGet_mapSet_self _ _ _
    · intro e he
      obtain ⟨d, hd, hde⟩ := mem_placements _ _ he
      exact hlast d hd e hde
  · have hsplit : placements (pre ++ dep :: post)
        = placements pre ++ (src, dir) :: placements post := by
      simp [placements, List.filterMap_append, List.filterMap_cons, hpl]
    rw [hsplit, List.foldl_append, List.foldl_cons]
    apply foldl_record_paths_mono
    rw [← hjoin]
    exact record_file_mem _ (src, dir)
  · have hsplit : placements (pre ++ dep :: post)
        = placements pre ++ (src, dir) :: placements post := by
      simp [placements, List.filterMap_append, List.filterMap_cons, hpl]
    rw [hsplit, List.foldl_append, List.foldl_cons]
    apply foldl_record_paths_mono
    exact record_dir_mem _ (src, dir)
  · intro s t hst
    rcases foldl_record_entry _ _ _ hst with h | ⟨e, he, h1, h2⟩
    · simp at h
    · obtain ⟨d, hd, hde⟩ := mem_placements _ _ he
      obtain ⟨e1, e2⟩ := e
      simp only at h1 h2
      subst h1
      exact ⟨d, hd, e2, hde, h2⟩

/-- Witness of C1: the `arm64` build of `libc`, visited after the `arm` build. -/
theorem C1_destination_recorded_witness :
    ∃ st, layout scenarioA = some st ∧
      mapGet st.copyManifest { str := "out/arm64/libc.so", base := "libc.so" }
        = some "lib64/libc.so" :=
  have h := C1_destination_recorded
    [{ tag := sharedLibTag,
       module := .ccModule armArch (some { str := "out/arm/libc.so", base := "libc.so" }) }]
    []
    { tag := sharedLibTag,
      module := .ccModule arm64Arch (some { str := "out/arm64/libc.so", base := "libc.so" }) }
    { str := "out/arm64/libc.so", base := "libc.so" } "lib64" "lib64/libc.so"
    (by decide) (by decide) (by decide) (by simp)
  h.elim fun st hst => ⟨st, hst.1, hst.2.1⟩

/-! ## Claims about `DepsMutator` -/

theorem foldl_arches (libs : List String) (arches : List Arch) (ctx : BottomUpMutatorContext) :
    arches.foldl (fun ctx arch =>
      AddFarVariationDependencies ctx
        [ { Mutator := "arch", Variation := ctx.os ++ "_" ++ arch.str },
          { Mutator := "image", Variation := "core" },
          { Mutator := "link", Variation := "shared" } ]
        sharedLibTag libs) ctx
    = { ctx with edges := ctx.edges ++
          arches.flatMap (fun arch => libs.map (sharedLibEdge ctx.os arch)) } := by
  induction arches generalizing ctx with
  | nil => simp
  | cons a as ih =>
    rw [List.foldl_cons, ih]
    simp [AddFarVariationDependencies, List.flatMap_cons, sharedLibEdge]

theorem DepsMutator_edges (properties : apexBundleProperties) (ctx : BottomUpMutatorContext)
    (hne : ctx.arches ≠ []) :
    DepsMutator properties ctx =
      { ctx := { ctx with edges := ctx.edges ++
          (ctx.arches.flatMap (fun arch =>
            properties.Native_shared_lib_modules.map (sharedLibEdge ctx.os arch)) ++
          (properties.Executable_modules.map
            (fun n => ⟨[{ Mutator := "image", Variation := "core" }], executableTag, n⟩) ++
          (properties.Java_modules.map (fun n => ⟨[], javaLibTag, n⟩) ++
           properties.Prebuilt_modules.map (fun n => ⟨[], prebuiltTag, n⟩)))) },
        panicked := none } := by
  have hlen : ctx.arches.length ≠ 0 := by
    simpa [List.length_eq_zero] using hne
  unfold DepsMutator
  simp only [hlen, if_false]
  rw [foldl_arches]
  simp [AddFarVariationDependencies]

theorem getElem?_flatMap_block {α β γ : Type} (f : α → β → γ) (as : List α) (bs : List β)
    (i j : Nat) (a : α) (b : β) (ha : as[i]? = some a) (hb : bs[j]? = some b) :
    (as.flatMap (fun x => bs.map (f x)))[i * bs.length + j]? = some (f a b) := by
  have hj : j < bs.length := by
    by_contra hcon
    have := List.getElem?_eq_none (Nat.le_of_not_lt hcon)
    simp [this] at hb
  induction as generalizing i with
  | nil => simp at ha
  | cons x xs ih =>
    cases i with
    | zero =>
      simp only [List.getElem?_cons_zero, Option.some.injEq] at ha
      subst ha
      simp only [List.flatMap_cons, Nat.zero_mul, Nat.zero_add]
      rw [List.getElem?_append_left (by simpa using hj)]
      simp [hb]
    | succ k =>
      simp only [List.getElem?_cons_succ] at ha
      simp only [List.flatMap_cons]
      rw [List.getElem?_append_right (by simp [Nat.succ_mul]; omega)]
      have hidx : (k + 1) * bs.length + j - (bs.map (f x)).length = k * bs.length + j := by
        simp [Nat.succ_mul]; omega
      rw [hidx]
      exact ih k ha

/-- C2: with a non-empty list of device architectures, `DepsMutator` does
not panic and registers, after the edges already present, shared-library edges that
number `N × |A|` for `N` declared names and the architectures `A`: the edge at
position `i * N + j` is the edge of architecture `i` and library `j`, carrying
the variation of that architecture, the `core` image and the `shared` link; an
edge is a shared-library edge of the run only if it is the edge of a declared
library and a device architecture, and with distinct names and distinct
architectures the edge of every (library, architecture) pair occurs once. -/
theorem C2_shared_lib_fan_out (properties : apexBundleProperties)
    (ctx : BottomUpMutatorContext) (hne : ctx.arches ≠ []) :
    ∃ new, (DepsMutator properties ctx).panicked = none ∧
      (DepsMutator properties ctx).ctx.edges = ctx.edges ++ new ∧
      (sharedLibEdges new).length
        = properties.Native_shared_lib_modules.length * ctx.arches.length ∧
      (∀ i j arch lib, ctx.arches[i]? = some arch →
        properties.Native_shared_lib_modules[j]? = some lib →
        (sharedLibEdges new)[i * properties.Native_shared_lib_modules.length + j]?
          = some (sharedLibEdge ctx.os arch lib)) ∧
      (∀ e ∈ sharedLibEdges new, ∃ arch ∈ ctx.arches,
        ∃ lib ∈ properties.Native_shared_lib_modules, e = sharedLibEdge ctx.os arch lib) ∧
      (properties.Native_shared_lib_modules.Nodup → (ctx.arches.map Arch.str).Nodup →
        ∀ arch ∈ ctx.arches, ∀ lib ∈ properties.Native_shared_lib_modules,
          (sharedLibEdges new).count (sharedLibEdge ctx.os arch lib) = 1) := by
  have t1 : executableTag ≠ sharedLibTag := by decide
  have t2 : javaLibTag ≠ sharedLibTag := by decide
  have t4 : prebuiltTag ≠ sharedLibTag := by decide
  have hrun := DepsMutator_edges properties ctx hne
  refine ⟨ctx.arches.flatMap (fun arch =>
            properties.Native_shared_lib_modules.map (sharedLibEdge ctx.os arch)) ++
          (properties.Executable_modules.map
            (fun n => ⟨[{ Mutator := "image", Variation := "core" }], executableTag, n⟩) ++
          (properties.Java_modules.map (fun n => ⟨[], javaLibTag, n⟩) ++
           properties.Prebuilt_modules.map (fun n => ⟨[], prebuiltTag, n⟩))),
    by rw [hrun], by rw [hrun], ?_⟩
  have hfilter : sharedLibEdges
      (ctx.arches.flatMap (fun arch =>
            properties.Native_shared_lib_modules.map (sharedLibEdge ctx.os arch)) ++
          (properties.Executable_modules.map
            (fun n => ⟨[{ Mutator := "image", Variation := "core" }], executableTag, n⟩) ++
          (properties.Java_modules.map (fun n => ⟨[], javaLibTag, n⟩) ++
           properties.Prebuilt_modules.map (fun n => ⟨[], prebuiltTag, n⟩))))
      = ctx.arches.flatMap (fun arch =>
            properties.Native_shared_lib_modules.map (sharedLibEdge ctx.os arch)) := by
    unfold sharedLibEdges
    rw [List.filter_append, List.filter_append, List.filter_append]
    have h1 : List.filter (fun e : DependencyEdge => decide (e.tag = sharedLibTag))
        (ctx.arches.flatMap (fun arch =>
            properties.Native_shared_lib_modules.map (sharedLibEdge ctx.os arch)))
        = ctx.arches.flatMap (fun arch =>
            properties.Native_shared_lib_modules.map (sharedLibEdge ctx.os arch)) := by
      rw [List.filter_eq_self]
      intro e he
      simp only [List.mem_flatMap, List.mem_map] at he
      obtain ⟨a, _, n, _, rfl⟩ := he
      simp [sharedLibEdge]
    rw [h1]
    simp [List.filter_map, Function.comp_def, t1, t2, t4]
  rw [hfilter]
  refine ⟨?_, ?_, ?_, ?_⟩
  · rw [List.length_flatMap]
    simp [Function.comp_def, Nat.mul_comm]
  · intro i j arch lib hi hj
    exact getElem?_flatMap_block (sharedLibEdge ctx.os) _ _ i j arch lib hi hj
  · intro e he
    simp only [List.mem_flatMap, List.mem_map] at he
    obtain ⟨a, ha, n, hn, rfl⟩ := he
    exact ⟨a, ha, n, hn, rfl⟩
  · intro hlibs harch arch ha lib hl
    apply List.count_eq_one_of_mem
    · rw [List.nodup_flatMap]
      constructor
      · intro a _
        apply List.Nodup.map _ hlibs
        intro x y hxy
        simpa [sharedLibEdge] using hxy
      · have hp : List.Pairwise (fun a b : Arch => a.str ≠ b.str) ctx.arches := by
          simpa [List.Nodup, List.pairwise_map] using harch
        refine hp.imp ?_
        intro a b hab e hea heb
        simp only [List.mem_map] at hea heb
        obtain ⟨n1, _, rfl⟩ := hea
        obtain ⟨n2, _, h2⟩ := heb
        simp only [sharedLibEdge, DependencyEdge.mk.injEq, List.cons.injEq, Variation.mk.injEq,
          true_and, and_true] at h2
        have h3 := h2.1
        have h4 : (ctx.os ++ "_" ++ b.str).data = (ctx.os ++ "_" ++ a.str).data := by rw [h3]
        simp only [String.data_append, List.append_cancel_left_eq] at h4
        exact hab (String.ext h4).symm
    · simp only [List.mem_flatMap, List.mem_map]
      exact ⟨arch, ha, lib, hl, rfl⟩

/-- Witness of C2: the library `libc` on a device with `arm` and `arm64`. -/
theorem C2_shared_lib_fan_out_witness :
    ∃ new, (DepsMutator ⟨none, none, ["libc"], [], [], []⟩
        ⟨[armArch, arm64Arch], "android", []⟩).panicked = none ∧
      (DepsMutator ⟨none, none, ["libc"], [], [], []⟩
        ⟨[armArch, arm64Arch], "android", []⟩).ctx.edges = [] ++ new ∧
      (sharedLibEdges new).length = 1 * 2 :=
  have h := C2_shared_lib_fan_out ⟨none, none, ["libc"], [], [], []⟩
    ⟨[armArch, arm64Arch], "android", []⟩ (by decide)
  h.elim fun new hn => ⟨new, hn.1, hn.2.1, hn.2.2.1⟩

/-- C8: with an empty list of device architectures `DepsMutator` panics, and
the context it leaves behind has the edges it started with: no edge of any
category is registered. -/
theorem C8_no_arch_panics (properties : apexBundleProperties)
    (ctx : BottomUpMutatorContext) (hempty : ctx.arches = []) :
    (DepsMutator properties ctx).panicked = some "device build with no primary arch" ∧
      (DepsMutator properties ctx).ctx.edges = ctx.edges ∧
      (DepsMutator properties ctx).ctx = ctx := by
  simp [DepsMutator, hempty]

/-- Witness of C8: a bundle with one name in every list on a device without
architectures. -/
theorem C8_no_arch_panics_witness :
    (DepsMutator ⟨none, none, ["libc"], ["toybox"], ["framework"], ["fw"]⟩
        ⟨[], "android", []⟩).panicked = some "device build with no primary arch" ∧
      (DepsMutator ⟨none, none, ["libc"], ["toybox"], ["framework"], ["fw"]⟩
        ⟨[], "android", []⟩).ctx.edges = [] :=
  have h := C8_no_arch_panics ⟨none, none, ["libc"], ["toybox"], ["framework"], ["fw"]⟩
    ⟨[], "android", []⟩ rfl
  ⟨h.1, h.2.1⟩

/-! ## Claims about the build statements -/

theorem foldl_copyCommands (img : String) (l : List (Path × String)) (acc : List String) :
    l.foldl (fun cmds e => cmds ++ copyCommandsOf img e) acc
      = acc ++ l.flatMap (copyCommandsOf img) := by
  induction l generalizing acc with
  | nil => simp
  | cons e es ih => simp [List.foldl_cons, ih, List.flatMap_cons]

theorem generate_eq (properties : apexBundleProperties) (ctx : ModuleContext)
    (range₁ range₂ : RangeOrder) (h : ∀ d ∈ ctx.deps, Resolved d) :
    ∃ out, GenerateAndroidBuildActions properties ctx range₁ range₂ = some out ∧
      layout ctx.deps = some { copyManifest := out.copyManifest, pathsInApex := out.pathsInApex } ∧
      out.implicitInputs = (range₁ out.copyManifest).map (fun e => e.1) ++
        [ ctx.PathForModuleOut "canned_fs_config",
          ctx.PathForModuleSrc (StringDefault properties.Manifest "manifest.json"),
          ctx.PathForModuleSrc (StringDefault properties.File_contexts "file_contexts"),
          ctx.PathForSource "system/apex/apexer/testdata/testkey.pem" ] ∧
      out.copyCommands
        = (range₂ out.copyManifest).flatMap (copyCommandsOf (ctx.PathForModuleOut "image").str) ∧
      out.apexBuild.Implicits = out.implicitInputs ∧
      out.fsConfigBuild.Args = [("paths", stringsJoin out.pathsInApex " ")] ∧
      out.apexBuild.Args =
        [ ("tool_path", (ctx.PathForOutput ["host", ctx.PrebuiltOS, "bin"]).str ++ ":" ++
            Join ["prebuilts", "sdk", "tools", ctx.PrebuiltOS, "bin"]),
          ("image_dir", (ctx.PathForModuleOut "image").str),
          ("copy_commands", stringsJoin out.copyCommands " && "),
          ("manifest",
            (ctx.PathForModuleSrc (StringDefault properties.Manifest "manifest.json")).str),
          ("file_contexts",
            (ctx.PathForModuleSrc (StringDefault properties.File_contexts "file_contexts")).str),
          ("canned_fs_config", (ctx.PathForModuleOut "canned_fs_config").str),
          ("key", (ctx.PathForSource "system/apex/apexer/testdata/testkey.pem").str) ] := by
  have hl := layout_eq ctx.deps h
  simp only [GenerateAndroidBuildActions, hl, foldl_copyCommands, List.nil_append]
  exact ⟨_, rfl, rfl, rfl, rfl, rfl, rfl, rfl⟩

theorem getElem?_flatMap_copyCommands (img : String) (l : List (Path × String)) (i : Nat)
    (e : Path × String) (h : l[i]? = some e) :
    (l.flatMap (copyCommandsOf img))[2 * i]? = some ("mkdir -p " ++ Dir (Join [img, e.2])) ∧
    (l.flatMap (copyCommandsOf img))[2 * i + 1]?
      = some ("cp " ++ e.1.str ++ " " ++ Join [img, e.2]) := by
  induction l generalizing i with
  | nil => simp at h
  | cons x xs ih =>
    cases i with
    | zero =>
      simp only [List.getElem?_cons_zero, Option.some.injEq] at h
      subst h
      simp [List.flatMap_cons, copyCommandsOf]
    | succ k =>
      simp only [List.getElem?_cons_succ] at h
      have h2 := ih k h
      have e1 : 2 * (k + 1) = (2 * k) + 2 := by ring
      have e2 : 2 * (k + 1) + 1 = (2 * k + 1) + 2 := by ring
      rw [e2, e1]
      simpa [List.flatMap_cons, copyCommandsOf] using h2

theorem length_flatMap_copyCommands (img : String) (l : List (Path × String)) :
    (l.flatMap (copyCommandsOf img)).length = 2 * l.length := by
  induction l with
  | nil => simp
  | cons x xs ih =>
    simp only [List.flatMap_cons, List.length_append, ih, List.length_cons]
    simp [copyCommandsOf]
    ring

/-- C6: for resolved dependencies and any admissible visiting order of the
second `range`, the list of staging commands has two commands for every entry
of `copyManifest`; for every entry there is a position `i` with
`mkdir -p <directory of image/dest>` at `2 * i` and `cp <src> <image/dest>`
right after it at `2 * i + 1`, and every pair of positions holds the two
commands of an entry; the command of `apexRule` begins with the removal and the
creation of the image directory, followed by the staging commands joined with
`&&` in parentheses. -/
theorem C6_mkdir_before_cp (properties : apexBundleProperties) (ctx : ModuleContext)
    (range₁ range₂ : RangeOrder) (apexer : String)
    (hres : ∀ d ∈ ctx.deps, Resolved d) (hrange : range₂.admissible) :
    ∃ out, GenerateAndroidBuildActions properties ctx range₁ range₂ = some out ∧
      out.copyCommands.length = 2 * out.copyManifest.length ∧
      (∀ e ∈ out.copyManifest, ∃ i,
        out.copyCommands[2 * i]?
          = some ("mkdir -p " ++ Dir (Join [(ctx.PathForModuleOut "image").str, e.2])) ∧
        out.copyCommands[2 * i + 1]?
          = some ("cp " ++ e.1.str ++ " " ++ Join [(ctx.PathForModuleOut "image").str, e.2])) ∧
      (∀ i, i < out.copyManifest.length → ∃ e ∈ out.copyManifest,
        out.copyCommands[2 * i]?
          = some ("mkdir -p " ++ Dir (Join [(ctx.PathForModuleOut "image").str, e.2])) ∧
        out.copyCommands[2 * i + 1]?
          = some ("cp " ++ e.1.str ++ " " ++ Join [(ctx.PathForModuleOut "image").str, e.2])) ∧
      ∃ rest, apexRuleCommand apexer out.apexBuild.Output.str out.apexBuild.Args
        = "rm -rf " ++ (ctx.PathForModuleOut "image").str ++
          " && mkdir -p " ++ (ctx.PathForModuleOut "image").str ++
          " && (" ++ stringsJoin out.copyCommands " && " ++ ") && " ++ rest := by
  obtain ⟨out, hout, _, _, hcmds, _, _, hargs⟩ := generate_eq properties ctx range₁ range₂ hres
  have hperm := hrange out.copyManifest
  refine ⟨out, hout, ?_, ?_, ?_, ?_⟩
  · rw [hcmds, length_flatMap_copyCommands, hperm.length_eq]
  · intro e he
    have he' : e ∈ range₂ out.copyManifest := hperm.mem_iff.mpr he
    obtain ⟨i, hi⟩ := List.getElem?_of_mem he'
    refine ⟨i, ?_⟩
    rw [hcmds]
    exact getElem?_flatMap_copyCommands _ _ i e hi
  · intro i hi
    have hi' : i < (range₂ out.copyManifest).length := by rw [hperm.length_eq]; exact hi
    refine ⟨(range₂ out.copyManifest)[i], hperm.mem_iff.mp (List.getElem_mem _), ?_⟩
    rw [hcmds]
    exact getElem?_flatMap_copyCommands _ _ i _ (List.getElem?_eq_getElem hi')
  · have hi : argOf out.apexBuild.Args "image_dir" = (ctx.PathForModuleOut "image").str := by
      rw [hargs]; rfl
    have hc : argOf out.apexBuild.Args "copy_commands" = stringsJoin out.copyCommands " && " := by
      rw [hargs]; rfl
    have hlit : (" && (" : String) = " && " ++ "(" := by decide
    refine ⟨"APEXER_TOOL_PATH=" ++ argOf out.apexBuild.Args "tool_path" ++ " " ++
      apexer ++ " --verbose --force --manifest " ++ argOf out.apexBuild.Args "manifest" ++ " " ++
      "--file_contexts " ++ argOf out.apexBuild.Args "file_contexts" ++ " " ++
      "--canned_fs_config " ++ argOf out.apexBuild.Args "canned_fs_config" ++ " " ++
      "--key " ++ argOf out.apexBuild.Args "key" ++ " " ++
      (ctx.PathForModuleOut "image").str ++ " " ++ out.apexBuild.Output.str ++ " ", ?_⟩
    unfold apexRuleCommand
    rw [hi, hc, hlit]
    simp only [String.append_assoc]

/-- Witness of C6: scenario A with the second `range` visiting in reverse. -/
theorem C6_mkdir_before_cp_witness :
    ∃ out, GenerateAndroidBuildActions sampleProperties (sampleContext scenarioA)
        id List.reverse = some out ∧
      out.copyCommands.length = 2 * out.copyManifest.length :=
  have h := C6_mkdir_before_cp sampleProperties (sampleContext scenarioA) id List.reverse
    "apexer" (by decide) (fun m => List.reverse_perm m)
  h.elim fun out ho => ⟨out, ho.1, ho.2.1⟩

/-- C4: for resolved dependencies and admissible visiting orders, the implicit
inputs of the `apexRule` build statement are the source paths of `copyManifest`
(each once, in the order of the first `range`) followed by the canned fs
config, the manifest, the file contexts and the key; so the source of every
entry, hence the source every `cp` command reads, is a declared input, and so
are the files the arguments `manifest`, `file_contexts`, `canned_fs_config` and
`key` name. -/
theorem C4_declared_inputs (properties : apexBundleProperties) (ctx : ModuleContext)
    (range₁ range₂ : RangeOrder)
    (hres : ∀ d ∈ ctx.deps, Resolved d)
    (hrange₁ : range₁.admissible) (hrange₂ : range₂.admissible) :
    ∃ out, GenerateAndroidBuildActions properties ctx range₁ range₂ = some out ∧
      (∃ srcs, srcs.Perm (out.copyManifest.map Prod.fst) ∧
        out.apexBuild.Implicits = srcs ++
          [ ctx.PathForModuleOut "canned_fs_config",
            ctx.PathForModuleSrc (StringDefault properties.Manifest "manifest.json"),
            ctx.PathForModuleSrc (StringDefault properties.File_contexts "file_contexts"),
            ctx.PathForSource "system/apex/apexer/testdata/testkey.pem" ]) ∧
      (∀ e ∈ out.copyManifest, e.1 ∈ out.apexBuild.Implicits) ∧
      (∀ cmd ∈ out.copyCommands, ∃ e ∈ out.copyManifest,
        cmd = "mkdir -p " ++ Dir (Join [(ctx.PathForModuleOut "image").str, e.2]) ∨
        (cmd = "cp " ++ e.1.str ++ " " ++ Join [(ctx.PathForModuleOut "image").str, e.2] ∧
          e.1 ∈ out.apexBuild.Implicits)) ∧
      (∀ k ∈ ["manifest", "file_contexts", "canned_fs_config", "key"],
        ∃ p ∈ out.apexBuild.Implicits, argOf out.apexBuild.Args k = p.str) := by
  obtain ⟨out, hout, _, himp, hcmds, hbuild, _, hargs⟩ :=
    generate_eq properties ctx range₁ range₂ hres
  have hp1 := hrange₁ out.copyManifest
  have hp2 := hrange₂ out.copyManifest
  have hsrc : ∀ e ∈ out.copyManifest, e.1 ∈ out.apexBuild.Implicits := by
    intro e he
    rw [hbuild, himp]
    apply List.mem_append_left
    exact List.mem_map.mpr ⟨e, hp1.mem_iff.mpr he, rfl⟩
  refine ⟨out, hout, ?_, hsrc, ?_, ?_⟩
  · refine ⟨(range₁ out.copyManifest).map (fun e => e.1), hp1.map _, ?_⟩
    rw [hbuild, himp]
  · intro cmd hcmd
    rw [hcmds] at hcmd
    simp only [List.mem_flatMap, copyCommandsOf, List.mem_cons, List.mem_singleton,
      List.not_mem_nil, or_false] at hcmd
    obtain ⟨e, he, h⟩ := hcmd
    have he' := hp2.mem_iff.mp he
    refine ⟨e, he', ?_⟩
    rcases h with h | h
    · exact Or.inl h
    · exact Or.inr ⟨h, hsrc e he'⟩
  · intro k hk
    rw [hbuild, himp, hargs]
    simp only [List.mem_cons, List.mem_singleton, List.not_mem_nil, or_false] at hk
    rcases hk with rfl | rfl | rfl | rfl
    · exact ⟨_, by simp, rfl⟩
    · exact ⟨ctx.PathForModuleSrc (StringDefault properties.File_contexts "file_contexts"),
        by simp, rfl⟩
    · exact ⟨ctx.PathForModuleOut "canned_fs_config", by simp, rfl⟩
    · exact ⟨ctx.PathForSource "system/apex/apexer/testdata/testkey.pem", by simp, rfl⟩

/-- Witness of C4: scenario A with the two `range` statements in different orders. -/
theorem C4_declared_inputs_witness :
    ∃ out, GenerateAndroidBuildActions sampleProperties (sampleContext scenarioA)
        List.reverse id = some out ∧
      ∀ e ∈ out.copyManifest, e.1 ∈ out.apexBuild.Implicits :=
  have h := C4_declared_inputs sampleProperties (sampleContext scenarioA) List.reverse id
    (by decide) (fun m => List.reverse_perm m) (fun m => List.Perm.refl m)
  h.elim fun out ho => ⟨out, ho.1, ho.2.2.1⟩

/-! ## The path list as a multiset -/

theorem record_paths (st : LayoutState) (e : Path × String) :
    (record st e).pathsInApex = st.pathsInApex ++ [destOf e] ++
      (if e.2 ∈ st.pathsInApex ∨ e.2 = destOf e then [] else [e.2]) := by
  unfold record InList
  by_cases h : e.2 ∈ st.pathsInApex ∨ e.2 = destOf e
  · have h' : e.2 ∈ st.pathsInApex ++ [destOf e] := by simpa using h
    simp [h, h']
  · have h' : e.2 ∉ st.pathsInApex ++ [destOf e] := by simpa using h
    simp [h, h']

theorem foldl_record_dest_mem (es : List (Path × String)) (st : LayoutState)
    (e : Path × String) (he : e ∈ es) :
    destOf e ∈ (es.foldl record st).pathsInApex ∧ e.2 ∈ (es.foldl record st).pathsInApex := by
  induction es generalizing st with
  | nil => simp at he
  | cons x xs ih =>
    rcases List.mem_cons.mp he with h | h
    · subst h
      exact ⟨foldl_record_paths_mono xs _ _ (record_file_mem st e),
        foldl_record_paths_mono xs _ _ (record_dir_mem st e)⟩
    · exact ih _ h

/-- When no destination path is the directory of a placement, the path list
holds every destination as often as it is placed and every directory once. -/
theorem count_paths (es : List (Path × String)) (st : LayoutState) (p : String)
    (hA : ∀ x ∈ es, ∀ y ∈ es, destOf x ≠ y.2) :
    (es.foldl record st).pathsInApex.count p
      = st.pathsInApex.count p + (es.map destOf).count p +
        (if p ∈ es.map Prod.snd ∧ p ∉ st.pathsInApex then 1 else 0) := by
  induction es generalizing st with
  | nil => simp
  | cons e rest ih =>
    have hrest : ∀ x ∈ rest, ∀ y ∈ rest, destOf x ≠ y.2 :=
      fun x hx y hy => hA x (by simp [hx]) y (by simp [hy])
    have hne : e.2 ≠ destOf e := fun h => hA e (by simp) e (by simp) h.symm
    have hdir : ∀ y ∈ rest, destOf e ≠ y.2 := fun y hy => hA e (by simp) y (by simp [hy])
    rw [List.foldl_cons, ih _ hrest, record_paths]
    simp only [hne, or_false, List.map_cons, List.count_cons, List.count_append,
      List.count_nil, List.mem_cons, List.mem_append, List.mem_singleton, beq_iff_eq]
    by_cases h1 : p = e.2
    · subst h1
      by_cases h2 : e.2 ∈ st.pathsInApex
      · simp [h2, hne, hne.symm]
      · simp [h2, hne, hne.symm]; omega
    · have h1' : ¬ e.2 = p := fun h => h1 h.symm
      by_cases h3 : p ∈ rest.map Prod.snd
      · have h4 : destOf e ≠ p := by
          obtain ⟨y, hy, rfl⟩ := List.mem_map.mp h3
          exact hdir y hy
        have h4' : ¬ p = destOf e := fun h => h4 h.symm
        by_cases h2 : e.2 ∈ st.pathsInApex
        · by_cases h5 : p ∈ st.pathsInApex <;> simp [h1, h1', h2, h3, h4, h4', h5]
        · by_cases h5 : p ∈ st.pathsInApex <;> simp [h1, h1', h2, h3, h4, h4', h5]
      · by_cases h2 : e.2 ∈ st.pathsInApex
        · simp [h1, h1', h2, h3]; omega
        · simp [h1, h1', h2, h3]; omega

/-! ## The path list handed to the permission table -/

/-- C5, the code at a prebuilt with the sub-directory `firmware`: the
destination is `etc/firmware/fw.bin`, the staging command `mkdir -p` creates
`etc/firmware` and with it `etc`, and the path list has the file and
`etc/firmware` but not the implied directory `etc`. -/
theorem C5_parent_directory_missing :
    (GenerateAndroidBuildActions sampleProperties (sampleContext nestedPrebuilt) id id).map
        (fun out => (out.copyManifest.map Prod.snd, out.pathsInApex, out.copyCommands))
      = some (["etc/firmware/fw.bin"], ["etc/firmware/fw.bin", "etc/firmware"],
          ["mkdir -p out/m/image/etc/firmware",
           "cp m/fw.bin out/m/image/etc/firmware/fw.bin"]) ∧
    impliedDirs "etc/firmware/fw.bin" = ["etc", "etc/firmware"] ∧
    "etc" ∉ ["etc/firmware/fw.bin", "etc/firmware"] := by
  refine ⟨by decide, by decide, by decide⟩

/-! ## `copyManifest` as a map -/

theorem keys_mapSet (m : List (Path × String)) (k : Path) (v : String) :
    (mapSet m k v).map Prod.fst
      = if k ∈ m.map Prod.fst then m.map Prod.fst else m.map Prod.fst ++ [k] := by
  induction m with
  | nil => simp [mapSet]
  | cons e rest ih =>
    obtain ⟨k', v'⟩ := e
    by_cases h : k' = k
    · simp [mapSet, h]
    · have h' : ¬ k = k' := fun h2 => h h2.symm
      by_cases h2 : k ∈ rest.map Prod.fst
      · simp only [mapSet, h, if_false, List.map_cons, ih, h2, if_true, List.mem_cons, h',
          false_or]
      · simp only [mapSet, h, if_false, List.map_cons, ih, h2, List.mem_cons, h',
          false_or, List.cons_append]

theorem nodup_keys_mapSet (m : List (Path × String)) (k : Path) (v : String)
    (h : (m.map Prod.fst).Nodup) : ((mapSet m k v).map Prod.fst).Nodup := by
  rw [keys_mapSet]
  split
  · exact h
  · rename_i hk
    exact List.Nodup.append h (List.nodup_singleton k) (by simpa using hk)

theorem nodup_keys_foldl (es : List (Path × String)) (st : LayoutState)
    (h : (st.copyManifest.map Prod.fst).Nodup) :
    ((es.foldl record st).copyManifest.map Prod.fst).Nodup := by
  induction es generalizing st with
  | nil => simpa using h
  | cons e es ih => exact ih _ (nodup_keys_mapSet _ _ _ h)

theorem mapGet_of_mem (m : List (Path × String)) (h : (m.map Prod.fst).Nodup)
    (s : Path) (t : String) (hm : (s, t) ∈ m) : mapGet m s = some t := by
  induction m with
  | nil => simp at hm
  | cons e rest ih =>
    obtain ⟨k', v'⟩ := e
    simp only [List.map_cons, List.nodup_cons] at h
    rcases List.mem_cons.mp hm with h1 | h1
    · simp only [Prod.mk.injEq] at h1
      simp [mapGet, h1.1, h1.2]
    · have hne : k' ≠ s := by
        intro hk
        apply h.1
        rw [hk]
        exact List.mem_map.mpr ⟨(s, t), h1, rfl⟩
      simp [mapGet, hne, ih h.2 h1]

/-- C7, as the code has it: for resolved dependencies the pairs of
`copyManifest` are unique by source: no source occurs twice, the lookup of a
source gives the destination of its pair, and two pairs of one source have one
destination.  The destinations are pairwise distinct when placements of
different sources have different destination paths; the code does not check
this, and two distinct sources of one directory and one base name can be mapped
to the same destination, as the two outputs named `toybox` are. -/
theorem C7_unique_by_source (deps : List Dep) (hres : ∀ d ∈ deps, Resolved d) :
    ∃ st, layout deps = some st ∧
      (st.copyManifest.map Prod.fst).Nodup ∧
      (∀ s t, (s, t) ∈ st.copyManifest → mapGet st.copyManifest s = some t) ∧
      (∀ s t t', (s, t) ∈ st.copyManifest → (s, t') ∈ st.copyManifest → t = t') ∧
      ((∀ x ∈ placements deps, ∀ y ∈ placements deps, x.1 ≠ y.1 → destOf x ≠ destOf y) →
        (st.copyManifest.map Prod.snd).Nodup) ∧
      (layout twoToyboxes).map (fun st' => st'.copyManifest)
        = some [ ({ str := "out/a/toybox", base := "toybox" }, "bin/toybox"),
                 ({ str := "out/b/toybox", base := "toybox" }, "bin/toybox") ] := by
  have hnd : ((List.foldl record { copyManifest := [], pathsInApex := [] }
      (placements deps)).copyManifest.map Prod.fst).Nodup :=
    nodup_keys_foldl _ _ (by simp)
  have hget := mapGet_of_mem _ hnd
  refine ⟨_, layout_eq deps hres, hnd, hget, ?_, ?_, by decide⟩
  · intro s t t' h1 h2
    have e1 := hget s t h1
    have e2 := hget s t' h2
    rw [e1] at e2
    exact Option.some.inj e2
  · intro hinj
    apply List.Nodup.map_on _ (List.Nodup.of_map _ hnd)
    intro x hx y hy hxy
    rcases foldl_record_entry _ _ _ hx with h | ⟨ex, hex, hx1, hx2⟩
    · simp at h
    rcases foldl_record_entry _ _ _ hy with h | ⟨ey, hey, hy1, hy2⟩
    · simp at h
    have hfst : x.1 = y.1 := by
      by_contra hne
      have hne' : ex.1 ≠ ey.1 := by rw [hx1, hy1]; exact hne
      apply hinj ex hex ey hey hne'
      have e1 : destOf ex = x.2 := by rw [hx2, ← hx1]
      have e2 : destOf ey = y.2 := by rw [hy2, ← hy1]
      rw [e1, e2, hxy]
    exact Prod.ext hfst hxy

/-- Witness of C7: scenario A. -/
theorem C7_unique_by_source_witness :
    ∃ st, layout scenarioA = some st ∧ (st.copyManifest.map Prod.fst).Nodup :=
  have h := C7_unique_by_source scenarioA (by decide)
  h.elim fun st hs => ⟨st, hs.1, hs.2.1⟩

/-- C7 fails as stated: two executables with different outputs of the base
name `toybox` are both mapped to `bin/toybox`. -/
theorem C7_counterexample :
    layout twoToyboxes = some
      { copyManifest :=
          [ ({ str := "out/a/toybox", base := "toybox" }, "bin/toybox"),
            ({ str := "out/b/toybox", base := "toybox" }, "bin/toybox") ],
        pathsInApex := ["bin/toybox", "bin", "bin/toybox"] } ∧
    ¬ (∀ deps st, (∀ d ∈ deps, Resolved d) → layout deps = some st →
        (st.copyManifest.map Prod.snd).Nodup) := by
  have hl : layout twoToyboxes = some
      { copyManifest :=
          [ ({ str := "out/a/toybox", base := "toybox" }, "bin/toybox"),
            ({ str := "out/b/toybox", base := "toybox" }, "bin/toybox") ],
        pathsInApex := ["bin/toybox", "bin", "bin/toybox"] } := by decide
  refine ⟨hl, ?_⟩
  intro h
  have h2 := h twoToyboxes _ (by decide) hl
  revert h2
  decide

/-! ## Determinism -/

/-- C9, as the code has it: for resolved dependencies and admissible visiting
orders, two runs agree on `copyManifest`, on the path list, on the build
statement of the permission table and on the output file; their implicit
inputs are the same sources in some order followed by the same four files,
their staging commands are the same commands in some order; and two runs whose
`range` statements visit `copyManifest` in the same orders produce the same
result. -/
theorem C9_determined_up_to_range_order (properties : apexBundleProperties)
    (ctx : ModuleContext) (range₁ range₂ range₁' range₂' : RangeOrder)
    (hres : ∀ d ∈ ctx.deps, Resolved d)
    (h₁ : range₁.admissible) (h₂ : range₂.admissible)
    (h₁' : range₁'.admissible) (h₂' : range₂'.admissible) :
    ∃ out out', GenerateAndroidBuildActions properties ctx range₁ range₂ = some out ∧
      GenerateAndroidBuildActions properties ctx range₁' range₂' = some out' ∧
      out.copyManifest = out'.copyManifest ∧
      out.pathsInApex = out'.pathsInApex ∧
      out.fsConfigBuild = out'.fsConfigBuild ∧
      out.outputFile = out'.outputFile ∧
      out.installDir = out'.installDir ∧
      (∃ srcs srcs' fixed, srcs.Perm srcs' ∧ fixed.length = 4 ∧
        out.apexBuild.Implicits = srcs ++ fixed ∧ out'.apexBuild.Implicits = srcs' ++ fixed) ∧
      out.copyCommands.Perm out'.copyCommands ∧
      (range₁ out.copyManifest = range₁' out.copyManifest →
        range₂ out.copyManifest = range₂' out.copyManifest → out = out') := by
  have hl := layout_eq ctx.deps hres
  simp only [GenerateAndroidBuildActions, hl]
  refine ⟨_, _, rfl, rfl, ?_⟩
  refine ⟨rfl, rfl, rfl, rfl, rfl, ?_, ?_, ?_⟩
  · refine ⟨_, _, _, ?_, ?_, rfl, rfl⟩
    · exact ((h₁ _).trans (h₁' _).symm).map _
    · rfl
  · simp only [foldl_copyCommands, List.nil_append]
    exact ((h₂ _).trans (h₂' _).symm).flatMap_right _
  · intro e1 e2
    simp only [e1, e2]

/-- Witness of C9: scenario A, one run visiting in order and one in reverse. -/
theorem C9_determined_up_to_range_order_witness :
    ∃ out out', GenerateAndroidBuildActions sampleProperties (sampleContext scenarioA)
        id id = some out ∧
      GenerateAndroidBuildActions sampleProperties (sampleContext scenarioA)
        List.reverse List.reverse = some out' ∧
      out.copyManifest = out'.copyManifest :=
  have h := C9_determined_up_to_range_order sampleProperties (sampleContext scenarioA)
    id id List.reverse List.reverse (by decide)
    (fun m => List.Perm.refl m) (fun m => List.Perm.refl m)
    (fun m => List.reverse_perm m) (fun m => List.reverse_perm m)
  h.elim fun out h' => h'.elim fun out' ho => ⟨out, out', ho.1, ho.2.1, ho.2.2.1⟩

/-- C9 fails as stated: in scenario A a run whose `range` statements visit
`copyManifest` in order and a run whose `range` statements visit it in reverse,
both admissible, differ in the implicit-input list and in the `copy_commands`
string. -/
theorem C9_counterexample :
    RangeOrder.admissible id ∧ RangeOrder.admissible List.reverse ∧
    (GenerateAndroidBuildActions sampleProperties (sampleContext scenarioA) id id).map
        (fun out => (out.apexBuild.Implicits.map Path.str,
          argOf out.apexBuild.Args "copy_commands"))
      = some (["out/arm/libc.so", "out/arm64/libc.so", "out/m/canned_fs_config",
                "m/manifest.json", "m/file_contexts",
                "system/apex/apexer/testdata/testkey.pem"],
              "mkdir -p out/m/image/lib && cp out/arm/libc.so out/m/image/lib/libc.so && " ++
              "mkdir -p out/m/image/lib64 && cp out/arm64/libc.so out/m/image/lib64/libc.so") ∧
    (GenerateAndroidBuildActions sampleProperties (sampleContext scenarioA)
        List.reverse List.reverse).map
        (fun out => (out.apexBuild.Implicits.map Path.str,
          argOf out.apexBuild.Args "copy_commands"))
      = some (["out/arm64/libc.so", "out/arm/libc.so", "out/m/canned_fs_config",
                "m/manifest.json", "m/file_contexts",
                "system/apex/apexer/testdata/testkey.pem"],
              "mkdir -p out/m/image/lib64 && cp out/arm64/libc.so out/m/image/lib64/libc.so && " ++
              "mkdir -p out/m/image/lib && cp out/arm/libc.so out/m/image/lib/libc.so") ∧
    GenerateAndroidBuildActions sampleProperties (sampleContext scenarioA) id id
      ≠ GenerateAndroidBuildActions sampleProperties (sampleContext scenarioA)
          List.reverse List.reverse := by
  refine ⟨fun m => List.Perm.refl m, fun m => List.reverse_perm m, by decide, by decide,
    by decide⟩

/-! ## Removal of a dependency -/

theorem copyManifest_foldl (es : List (Path × String)) (st : LayoutState) :
    (es.foldl record st).copyManifest
      = es.foldl (fun m x => mapSet m x.1 (destOf x)) st.copyManifest := by
  induction es generalizing st with
  | nil => rfl
  | cons e es ih => simp only [List.foldl_cons, ih]; rfl

theorem otherSource_self (k : Path) (v : String) : otherSource k (k, v) = false := by
  simp [otherSource]

theorem otherSource_of_ne (k k' : Path) (v : String) (h : k' ≠ k) :
    otherSource k (k', v) = true := by
  simp [otherSource, h]

theorem filter_mapSet_self (m : List (Path × String)) (k : Path) (v : String) :
    (mapSet m k v).filter (otherSource k) = m.filter (otherSource k) := by
  induction m with
  | nil => simp [mapSet, List.filter_cons, otherSource_self]
  | cons x rest ih =>
    obtain ⟨k', v'⟩ := x
    by_cases h : k' = k
    · subst h
      simp [mapSet, List.filter_cons, otherSource_self]
    · simp [mapSet, h, List.filter_cons, otherSource_of_ne _ _ _ h, ih]

theorem filter_mapSet_of_ne (m : List (Path × String)) (k k' : Path) (v : String)
    (hne : k' ≠ k) :
    (mapSet m k' v).filter (otherSource k) = mapSet (m.filter (otherSource k)) k' v := by
  induction m with
  | nil => simp [mapSet, List.filter_cons, otherSource_of_ne _ _ _ hne]
  | cons x rest ih =>
    obtain ⟨k₁, v₁⟩ := x
    by_cases h1 : k₁ = k'
    · subst h1
      simp [mapSet, List.filter_cons, otherSource_of_ne _ _ _ hne]
    · by_cases h2 : k₁ = k
      · subst h2
        simp [mapSet, h1, List.filter_cons, otherSource_self, ih]
      · simp [mapSet, h1, List.filter_cons, otherSource_of_ne _ _ _ h2, ih]

theorem filter_foldl_mapSet (es : List (Path × String)) (m : List (Path × String)) (k : Path) :
    (es.foldl (fun m x => mapSet m x.1 (destOf x)) m).filter (otherSource k)
      = (es.filter (otherSource k)).foldl (fun m x => mapSet m x.1 (destOf x))
          (m.filter (otherSource k)) := by
  induction es generalizing m with
  | nil => simp
  | cons e es ih =>
    obtain ⟨k', q⟩ := e
    by_cases h : k' = k
    · subst h
      simp only [List.foldl_cons, ih, filter_mapSet_self, List.filter_cons, otherSource_self]
      simp
    · simp only [List.foldl_cons, ih, filter_mapSet_of_ne _ _ _ _ h, List.filter_cons,
        otherSource_of_ne _ _ _ h]
      simp

theorem filter_key_eq_erase (m : List (Path × String)) (k : Path) (v : String)
    (hnd : (m.map Prod.fst).Nodup) (hm : (k, v) ∈ m) :
    m.filter (otherSource k) = m.erase (k, v) := by
  induction m with
  | nil => simp at hm
  | cons x rest ih =>
    obtain ⟨k', v'⟩ := x
    simp only [List.map_cons, List.nodup_cons] at hnd
    by_cases h : k' = k
    · subst h
      have hv : v' = v := by
        rcases List.mem_cons.mp hm with h1 | h1
        · simp only [Prod.mk.injEq] at h1
          exact h1.2.symm
        · exact absurd (List.mem_map.mpr ⟨(k', v), h1, rfl⟩) hnd.1
      subst hv
      have hrest : rest.filter (otherSource k') = rest := by
        rw [List.filter_eq_self]
        intro a ha
        obtain ⟨a1, a2⟩ := a
        have : a1 ≠ k' := fun h2 => hnd.1 (List.mem_map.mpr ⟨(a1, a2), ha, h2⟩)
        exact otherSource_of_ne _ _ _ this
      simp [List.filter_cons, otherSource_self, hrest]
    · have hm' : (k, v) ∈ rest := by
        rcases List.mem_cons.mp hm with h1 | h1
        · simp only [Prod.mk.injEq] at h1
          exact absurd h1.1.symm h
        · exact h1
      have hne : ((k', v') == (k, v)) = false := by
        simp [h]
      rw [List.filter_cons, otherSource_of_ne _ _ _ h, if_pos rfl, ih hnd.2 hm',
        List.erase_cons, hne]
      simp

theorem mem_of_mapGet (m : List (Path × String)) (k : Path) (v : String)
    (h : mapGet m k = some v) : (k, v) ∈ m := by
  induction m with
  | nil => simp [mapGet] at h
  | cons x rest ih =>
    obtain ⟨k', v'⟩ := x
    by_cases h1 : k' = k
    · simp only [mapGet, h1, if_true, Option.some.injEq] at h
      simp [h1, h]
    · simp only [mapGet, h1, if_false] at h
      exact List.mem_cons_of_mem _ (ih h)

/-- C10, as the code has it: let `d` be a resolved dependency of the list
with the placement `e`, let no other dependency of the list have the source
artifact of `d`, and let no destination path of the list be the directory of a
dependency of the list.  Then the layout of the list without `d` has the
`copyManifest` of the layout of the list minus the pair of `d`, and its path
list is, up to the order of the elements, the path list of the layout of the
list minus the destination of `d`, and minus the directory of `d` when no
remaining dependency has that directory. -/
theorem C10_removal (pre post : List Dep) (d : Dep) (e : Path × String)
    (hres : ∀ x ∈ pre ++ d :: post, Resolved x)
    (hpl : placement d = some e)
    (hsrc : ∀ x ∈ placements (pre ++ post), x.1 ≠ e.1)
    (hA : ∀ x ∈ placements (pre ++ d :: post), ∀ y ∈ placements (pre ++ d :: post),
      destOf x ≠ y.2) :
    ∃ st st', layout (pre ++ d :: post) = some st ∧ layout (pre ++ post) = some st' ∧
      (e.1, destOf e) ∈ st.copyManifest ∧
      st'.copyManifest = st.copyManifest.erase (e.1, destOf e) ∧
      st'.pathsInApex.Perm
        (if e.2 ∈ (placements (pre ++ post)).map Prod.snd
          then st.pathsInApex.erase (destOf e)
          else (st.pathsInApex.erase (destOf e)).erase e.2) := by
  have hres' : ∀ x ∈ pre ++ post, Resolved x := by
    intro x hx
    apply hres
    rcases List.mem_append.mp hx with h | h
    · exact List.mem_append_left _ h
    · exact List.mem_append_right _ (List.mem_cons_of_mem _ h)
  have hsplit : placements (pre ++ d :: post) = placements pre ++ e :: placements post := by
    simp [placements, List.filterMap_append, List.filterMap_cons, hpl]
  have hsplit' : placements (pre ++ post) = placements pre ++ placements post := by
    simp [placements, List.filterMap_append]
  have hsrc1 : ∀ x ∈ placements pre, x.1 ≠ e.1 :=
    fun x hx => hsrc x (by rw [hsplit']; exact List.mem_append_left _ hx)
  have hsrc2 : ∀ x ∈ placements post, x.1 ≠ e.1 :=
    fun x hx => hsrc x (by rw [hsplit']; exact List.mem_append_right _ hx)
  have hA' : ∀ x ∈ placements (pre ++ post), ∀ y ∈ placements (pre ++ post),
      destOf x ≠ y.2 := by
    intro x hx y hy
    apply hA
    · rw [hsplit]; rw [hsplit'] at hx
      rcases List.mem_append.mp hx with h | h
      · exact List.mem_append_left _ h
      · exact List.mem_append_right _ (List.mem_cons_of_mem _ h)
    · rw [hsplit]; rw [hsplit'] at hy
      rcases List.mem_append.mp hy with h | h
      · exact List.mem_append_left _ h
      · exact List.mem_append_right _ (List.mem_cons_of_mem _ h)
  have he_mem : e ∈ placements (pre ++ d :: post) := by rw [hsplit]; simp
  have hget : mapGet ((placements (pre ++ d :: post)).foldl record
      { copyManifest := [], pathsInApex := [] }).copyManifest e.1 = some (destOf e) := by
    rw [hsplit, List.foldl_append, List.foldl_cons, foldl_record_get_of_not_source _ _ _ hsrc2]
    exact mapGet_mapSet_self _ _ _
  have hmem := mem_of_mapGet _ _ _ hget
  have hnd : (((placements (pre ++ d :: post)).foldl record
      { copyManifest := [], pathsInApex := [] }).copyManifest.map Prod.fst).Nodup :=
    nodup_keys_foldl _ _ (by simp)
  refine ⟨_, _, layout_eq _ hres, layout_eq _ hres', hmem, ?_, ?_⟩
  · rw [← filter_key_eq_erase _ _ _ hnd hmem, copyManifest_foldl, copyManifest_foldl,
      filter_foldl_mapSet, hsplit, hsplit']
    have hf : (placements pre ++ e :: placements post).filter (otherSource e.1)
        = placements pre ++ placements post := by
      have he0 : otherSource e.1 e = false := by simp [otherSource]
      rw [List.filter_append, List.filter_cons, he0]
      simp only [Bool.false_eq_true, if_false]
      rw [List.filter_eq_self.mpr, List.filter_eq_self.mpr]
      · intro a ha; simpa [otherSource] using hsrc2 a ha
      · intro a ha; simpa [otherSource] using hsrc1 a ha
    rw [hf]
    simp
  · rw [List.perm_iff_count]
    intro p
    have hc := count_paths (placements (pre ++ d :: post))
      { copyManifest := [], pathsInApex := [] } p hA
    have hc' := count_paths (placements (pre ++ post))
      { copyManifest := [], pathsInApex := [] } p hA'
    have hdests : ((placements (pre ++ d :: post)).map destOf).count p
        = ((placements (pre ++ post)).map destOf).count p + (if destOf e = p then 1 else 0) := by
      rw [hsplit, hsplit']
      simp only [List.map_append, List.map_cons, List.count_append, List.count_cons,
        beq_iff_eq]
      omega
    have hdirs : p ∈ (placements (pre ++ d :: post)).map Prod.snd
        ↔ p = e.2 ∨ p ∈ (placements (pre ++ post)).map Prod.snd := by
      rw [hsplit, hsplit']
      simp only [List.map_append, List.map_cons, List.mem_append, List.mem_cons]
      tauto
    have hne : destOf e ≠ e.2 := hA e he_mem e he_mem
    have hmem_dest := (foldl_record_dest_mem (placements (pre ++ d :: post))
      { copyManifest := [], pathsInApex := [] } e he_mem).1
    have hmem_dir := (foldl_record_dest_mem (placements (pre ++ d :: post))
      { copyManifest := [], pathsInApex := [] } e he_mem).2
    simp only [List.count_nil, List.not_mem_nil, not_false_eq_true, and_true, Nat.zero_add]
      at hc hc'
    rw [hc']
    by_cases hused : e.2 ∈ (placements (pre ++ post)).map Prod.snd
    · simp only [hused, if_true]
      rw [List.count_erase, hc, hdests]
      have hiff : p ∈ (placements (pre ++ d :: post)).map Prod.snd
          ↔ p ∈ (placements (pre ++ post)).map Prod.snd := by
        rw [hdirs]
        constructor
        · rintro (h | h)
          · rw [h]; exact hused
          · exact h
        · exact Or.inr
      simp only [hiff, beq_iff_eq]
      omega
    · simp only [hused, if_false]
      rw [List.count_erase, List.count_erase, hc, hdests]
      simp only [beq_iff_eq]
      by_cases hp : p = e.2
      · subst hp
        have h1 : ¬ destOf e = e.2 := hne
        simp only [hdirs, true_or, if_true, hused, if_false, h1]
        omega
      · have hp' : ¬ e.2 = p := fun h => hp h.symm
        simp only [hdirs, hp, false_or, hp', if_false]
        omega

/-- Witness of C10: the executable `b` removed from the executables `a` and `b`. -/
theorem C10_removal_witness :
    ∃ st st', layout twoExecutables = some st ∧
      layout [{ tag := executableTag,
                module := .ccModule arm64Arch (some { str := "out/a", base := "a" }) }]
        = some st' ∧
      st'.copyManifest = st.copyManifest.erase ({ str := "out/b", base := "b" }, "bin/b") :=
  have h := C10_removal
    [{ tag := executableTag,
       module := .ccModule arm64Arch (some { str := "out/a", base := "a" }) }]
    []
    { tag := executableTag,
      module := .ccModule arm64Arch (some { str := "out/b", base := "b" }) }
    ({ str := "out/b", base := "b" }, "bin")
    (by decide) (by decide) (by decide) (by decide)
  h.elim fun st h' => h'.elim fun st' hs => ⟨st, st', hs.1, hs.2.1, hs.2.2.2.1⟩

/-- C10 fails as stated.  With `toybox` visited twice, the layout without the
second visit still has the pair of `toybox`.  With the executables `a` and `b`,
the layout without `a` has the path list `bin/b`, `bin`, which is not the
path list `bin/a`, `bin`, `bin/b` minus `bin/a`.  With the prebuilt file
`etc/foo` and a prebuilt in the directory `etc/foo`, the layout without the
file still has the path `etc/foo`. -/
theorem C10_counterexample :
    (layout (scenarioB ++ scenarioB) = some
        { copyManifest := [({ str := "out/arm64/toybox", base := "toybox" }, "bin/toybox")],
          pathsInApex := ["bin/toybox", "bin", "bin/toybox"] } ∧
      layout scenarioB = some
        { copyManifest := [({ str := "out/arm64/toybox", base := "toybox" }, "bin/toybox")],
          pathsInApex := ["bin/toybox", "bin"] }) ∧
    ((layout twoExecutables).map LayoutState.pathsInApex = some ["bin/a", "bin", "bin/b"] ∧
      (layout twoExecutables.tail).map LayoutState.pathsInApex = some ["bin/b", "bin"] ∧
      ["bin/b", "bin"] ≠ ["bin/a", "bin", "bin/b"].erase "bin/a") ∧
    ((layout fileAndDirectory).map LayoutState.pathsInApex
        = some ["etc/foo", "etc", "etc/foo/bar"] ∧
      (layout fileAndDirectory.tail).map LayoutState.pathsInApex
        = some ["etc/foo/bar", "etc/foo"] ∧
      ¬ (["etc/foo/bar", "etc/foo"].Perm
          ((["etc/foo", "etc", "etc/foo/bar"].erase "etc/foo").erase "etc"))) ∧
    ¬ (∀ (pre post : List Dep) (d : Dep) (e : Path × String),
        (∀ x ∈ pre ++ d :: post, Resolved x) → placement d = some e →
        ∃ st st', layout (pre ++ d :: post) = some st ∧ layout (pre ++ post) = some st' ∧
          st'.copyManifest = st.copyManifest.erase (e.1, destOf e) ∧
          st'.pathsInApex =
            (if e.2 ∈ (placements (pre ++ post)).map Prod.snd
              then st.pathsInApex.erase (destOf e)
              else (st.pathsInApex.erase (destOf e)).erase e.2)) := by
  have hl1 : layout (scenarioB ++ scenarioB) = some
      { copyManifest := [({ str := "out/arm64/toybox", base := "toybox" }, "bin/toybox")],
        pathsInApex := ["bin/toybox", "bin", "bin/toybox"] } := by decide
  have hl2 : layout scenarioB = some
      { copyManifest := [({ str := "out/arm64/toybox", base := "toybox" }, "bin/toybox")],
        pathsInApex := ["bin/toybox", "bin"] } := by decide
  refine ⟨⟨hl1, hl2⟩, ⟨by decide, by decide, by decide⟩, ⟨by decide, by decide, by decide⟩, ?_⟩
  intro h
  obtain ⟨st, st', h1, h2, h3, _⟩ := h scenarioB []
    { tag := executableTag,
      module := .ccModule arm64Arch (some { str := "out/arm64/toybox", base := "toybox" }) }
    ({ str := "out/arm64/toybox", base := "toybox" }, "bin") (by decide) (by decide)
  have h1' : layout (scenarioB ++ scenarioB) = some st := h1
  have h2' : layout scenarioB = some st' := by simpa using h2
  rw [hl1] at h1'
  rw [hl2] at h2'
  cases h1'
  cases h2'
  revert h3
  decide

end Apex
